import Mathlib

/-
Verification of the batched multi-objective selection and ranking engine of
the evotorch functional-operators API (domination counting, Pareto-front
partitioning, crowding distance, truncation selection).  The repository ships
only callers of `evotorch.operators.functional` (notebooks, CI, packaging);
the engine itself is therefore modelled from the specification.  Evaluations
are rational numbers, a population is a list of decision rows, an evaluation
array is a list of objective rows, and one optional leading batch dimension is
a list of such arrays.
-/

namespace EvoTorch

/-- Modelled from the spec: an objective sense is either `minimize` or
`maximize`, one such token per objective (the engine's `objective_sense`
argument, a vector of length `M`). -/
inductive Sense where
  | minimize : Sense
  | maximize : Sense
deriving DecidableEq

/-- Modelled from the spec: normalize a single objective value to
"lower is better" per its sense (maximized objectives are negated). -/
def normalize : Sense → ℚ → ℚ
  | Sense.minimize, v => v
  | Sense.maximize, v => -v

/-- Modelled from the spec: normalize a whole evaluation row, objective by
objective, per the objective-sense vector. -/
def normalizeRow (senses : List Sense) (row : List ℚ) : List ℚ :=
  List.zipWith normalize senses row

/-- The normalized scalar value of a single-objective evaluation row. -/
def val1 (s : Sense) (row : List ℚ) : ℚ :=
  normalize s (row.getD 0 0)

/-- Modelled from the spec: candidate `a` dominates candidate `b` iff, after
normalizing every objective to lower-is-better per the sense vector, `a` is no
worse than `b` on every objective and strictly better on at least one. -/
def dominates (senses : List Sense) (a b : List ℚ) : Bool :=
  (((normalizeRow senses a).zip (normalizeRow senses b)).all
      (fun p => decide (p.1 ≤ p.2))) &&
  (((normalizeRow senses a).zip (normalizeRow senses b)).any
      (fun p => decide (p.1 < p.2)))

/-- Modelled from the spec: the domination-count array of one population;
entry `i` counts how many candidates of the same population dominate
candidate `i`. -/
def domination_counts (evals : List (List ℚ)) (senses : List Sense) : List ℕ :=
  evals.map (fun b => (evals.filter (fun a => dominates senses a b)).length)

/-- Modelled from the spec: the batched domination-count operation; every
batch slice proceeds independently. -/
def domination_counts_batched (batch : List (List (List ℚ))) (senses : List Sense) :
    List (List ℕ) :=
  batch.map (fun evals => domination_counts evals senses)

theorem length_normalizeRow (senses : List Sense) (a : List ℚ) :
    (normalizeRow senses a).length = min senses.length a.length :=
  List.length_zipWith _ _ _

theorem dominates_eq_true_iff (senses : List Sense) (a b : List ℚ) :
    dominates senses a b = true ↔
      ((∀ k, k < (normalizeRow senses a).length → k < (normalizeRow senses b).length →
          (normalizeRow senses a).getD k 0 ≤ (normalizeRow senses b).getD k 0) ∧
       (∃ k, k < (normalizeRow senses a).length ∧ k < (normalizeRow senses b).length ∧
          (normalizeRow senses a).getD k 0 < (normalizeRow senses b).getD k 0)) := by
  have hlen : ((normalizeRow senses a).zip (normalizeRow senses b)).length
      = min (normalizeRow senses a).length (normalizeRow senses b).length :=
    List.length_zip _ _
  rw [dominates, Bool.and_eq_true, List.all_eq_true, List.any_eq_true]
  constructor
  · rintro ⟨hall, x, hxmem, hxlt⟩
    constructor
    · intro k hk1 hk2
      have hk : k < ((normalizeRow senses a).zip (normalizeRow senses b)).length := by
        omega
      have hmem := List.getElem_mem hk
      have := hall _ hmem
      rw [List.getElem_zip] at this
      simp only [decide_eq_true_eq] at this
      rwa [List.getD_eq_getElem _ 0 hk1, List.getD_eq_getElem _ 0 hk2]
    · obtain ⟨k, hk, hxeq⟩ := List.mem_iff_getElem.mp hxmem
      have hk1 : k < (normalizeRow senses a).length := by omega
      have hk2 : k < (normalizeRow senses b).length := by omega
      refine ⟨k, hk1, hk2, ?_⟩
      rw [List.getElem_zip] at hxeq
      simp only [decide_eq_true_eq] at hxlt
      rw [List.getD_eq_getElem _ 0 hk1, List.getD_eq_getElem _ 0 hk2]
      rw [← hxeq] at hxlt
      exact hxlt
  · rintro ⟨hall, k, hk1, hk2, hlt⟩
    constructor
    · intro x hxmem
      obtain ⟨m, hm, hxeq⟩ := List.mem_iff_getElem.mp hxmem
      have hm1 : m < (normalizeRow senses a).length := by omega
      have hm2 : m < (normalizeRow senses b).length := by omega
      rw [List.getElem_zip] at hxeq
      have := hall m hm1 hm2
      rw [List.getD_eq_getElem _ 0 hm1, List.getD_eq_getElem _ 0 hm2] at this
      rw [← hxeq]
      simpa using this
    · have hk : k < ((normalizeRow senses a).zip (normalizeRow senses b)).length := by
        omega
      refine ⟨((normalizeRow senses a).zip (normalizeRow senses b))[k],
        List.getElem_mem hk, ?_⟩
      rw [List.getElem_zip]
      rw [List.getD_eq_getElem _ 0 hk1, List.getD_eq_getElem _ 0 hk2] at hlt
      simpa using hlt

theorem dominates_of_normalizeRow_eq (senses : List Sense) (a b : List ℚ)
    (h : normalizeRow senses a = normalizeRow senses b) :
    dominates senses a b = false := by
  rw [← Bool.not_eq_true]
  intro hdom
  obtain ⟨-, k, hk1, hk2, hlt⟩ := (dominates_eq_true_iff senses a b).mp hdom
  rw [h] at hlt
  exact lt_irrefl _ hlt

theorem dominates_self (senses : List Sense) (a : List ℚ) :
    dominates senses a a = false :=
  dominates_of_normalizeRow_eq senses a a rfl

theorem dominates_of_eq (senses : List Sense) (a b : List ℚ) (h : a = b) :
    dominates senses a b = false := by
  subst h; exact dominates_self senses a

theorem dominates_trans (senses : List Sense) {L : ℕ} (a b c : List ℚ)
    (ha : a.length = L) (hb : b.length = L) (hc : c.length = L)
    (hab : dominates senses a b = true) (hbc : dominates senses b c = true) :
    dominates senses a c = true := by
  rw [dominates_eq_true_iff] at hab hbc ⊢
  obtain ⟨hab1, j, hj1, hj2, hjlt⟩ := hab
  obtain ⟨hbc1, -⟩ := hbc
  have hla : (normalizeRow senses a).length = min senses.length L := by
    rw [length_normalizeRow, ha]
  have hlb : (normalizeRow senses b).length = min senses.length L := by
    rw [length_normalizeRow, hb]
  have hlc : (normalizeRow senses c).length = min senses.length L := by
    rw [length_normalizeRow, hc]
  constructor
  · intro k hk1 hk2
    have hkb : k < (normalizeRow senses b).length := by omega
    exact le_trans (hab1 k hk1 hkb) (hbc1 k hkb hk2)
  · refine ⟨j, hj1, by omega, ?_⟩
    have hjc : j < (normalizeRow senses c).length := by omega
    exact lt_of_lt_of_le hjlt (hbc1 j hj2 hjc)

/-- Modelled from the spec: within the remaining set `rem`, a candidate is on
the current front iff its domination count restricted to `rem` is zero,
i.e. no member of `rem` dominates it. -/
def undominatedIn (senses : List Sense) (rem : List (ℕ × List ℚ)) (b : ℕ × List ℚ) : Bool :=
  ! rem.any (fun a => dominates senses a.2 b.2)

theorem exists_undominated (senses : List Sense) {L : ℕ} :
    ∀ (rem : List (ℕ × List ℚ)), rem ≠ [] →
      (∀ p ∈ rem, p.2.length = L) →
      ∃ b ∈ rem, ∀ a ∈ rem, dominates senses a.2 b.2 = false
  | [], h, _ => absurd rfl h
  | x :: rest, _, hlen => by
    rcases eq_or_ne rest [] with hrest | hrest
    · subst hrest
      refine ⟨x, List.mem_cons_self x [], ?_⟩
      intro a ha
      rcases List.mem_singleton.mp ha with rfl
      exact dominates_self senses a.2
    · obtain ⟨m, hmmem, hmmin⟩ :=
        exists_undominated senses rest hrest (fun p hp => hlen p (List.mem_cons_of_mem x hp))
      by_cases hxm : dominates senses x.2 m.2 = true
      · refine ⟨x, List.mem_cons_self x rest, ?_⟩
        intro a ha
        rcases List.mem_cons.mp ha with rfl | ha
        · exact dominates_self senses a.2
        · rw [← Bool.not_eq_true]
          intro hax
          have ham : dominates senses a.2 m.2 = true :=
            dominates_trans senses a.2 x.2 m.2
              (hlen a (List.mem_cons_of_mem x ha))
              (hlen x (List.mem_cons_self x rest))
              (hlen m (List.mem_cons_of_mem x hmmem))
              hax hxm
          rw [hmmin a ha] at ham
          exact Bool.false_ne_true ham
      · refine ⟨m, List.mem_cons_of_mem x hmmem, ?_⟩
        intro a ha
        rcases List.mem_cons.mp ha with rfl | ha
        · exact Bool.not_eq_true _ |>.mp hxm
        · exact hmmin a ha

/-- Modelled from the spec: fast non-dominated sort.  Strip the current
non-dominated front from the remaining candidates, assign it the current
rank, and recurse on the rest with the next rank; `fuel` bounds the number
of strips (one initial candidate per strip suffices). -/
def frontRanksAux (senses : List Sense) : ℕ → ℕ → List (ℕ × List ℚ) → List (ℕ × ℕ)
  | 0, r, rem => rem.map (fun p => (p.1, r))
  | fuel + 1, r, rem =>
    (rem.filter (undominatedIn senses rem)).map (fun p => (p.1, r)) ++
      frontRanksAux senses fuel (r + 1)
        (rem.filter (fun b => ! undominatedIn senses rem b))

theorem frontRanksAux_keys_perm (senses : List Sense) :
    ∀ (fuel r : ℕ) (rem : List (ℕ × List ℚ)),
      ((frontRanksAux senses fuel r rem).map Prod.fst).Perm (rem.map Prod.fst)
  | 0, r, rem => by
    simp only [frontRanksAux, List.map_map]
    exact List.Perm.refl _
  | fuel + 1, r, rem => by
    simp only [frontRanksAux, List.map_append, List.map_map]
    have h1 : (List.map (Prod.fst ∘ fun p => (p.1, r))
        (rem.filter (undominatedIn senses rem)))
        = List.map Prod.fst (rem.filter (undominatedIn senses rem)) := by
      simp
    rw [h1]
    have h2 := frontRanksAux_keys_perm senses fuel (r + 1)
      (rem.filter (fun b => ! undominatedIn senses rem b))
    have h3 := (List.filter_append_perm (undominatedIn senses rem) rem).map Prod.fst
    rw [List.map_append] at h3
    exact ((List.Perm.refl _).append h2).trans h3

theorem frontRanksAux_nil (senses : List Sense) :
    ∀ (fuel r : ℕ), frontRanksAux senses fuel r [] = []
  | 0, r => by simp [frontRanksAux]
  | fuel + 1, r => by
    simp only [frontRanksAux, List.filter_nil, List.map_nil, List.nil_append]
    exact frontRanksAux_nil senses fuel (r + 1)

theorem frontRanksAux_rank_le (senses : List Sense) :
    ∀ (fuel r : ℕ) (rem : List (ℕ × List ℚ)) (q : ℕ × ℕ),
      q ∈ frontRanksAux senses fuel r rem → r ≤ q.2
  | 0, r, rem, q, hq => by
    simp only [frontRanksAux] at hq
    obtain ⟨p, -, hpq⟩ := List.mem_map.mp hq
    have hq2 : q.2 = r := by rw [← hpq]
    omega
  | fuel + 1, r, rem, q, hq => by
    simp only [frontRanksAux, List.mem_append] at hq
    rcases hq with hq | hq
    · obtain ⟨p, -, hpq⟩ := List.mem_map.mp hq
      have hq2 : q.2 = r := by rw [← hpq]
      omega
    · have := frontRanksAux_rank_le senses fuel (r + 1) _ q hq
      omega

theorem frontRanksAux_length_preserved (senses : List Sense)
    (fuel r : ℕ) (rem : List (ℕ × List ℚ)) :
    (frontRanksAux senses fuel r rem).length = rem.length := by
  have := (frontRanksAux_keys_perm senses fuel r rem).length_eq
  simpa using this

theorem frontRanksAux_rank_lt (senses : List Sense) {L : ℕ} :
    ∀ (fuel r : ℕ) (rem : List (ℕ × List ℚ)),
      rem.length ≤ fuel →
      (∀ p ∈ rem, p.2.length = L) →
      ∀ q ∈ frontRanksAux senses fuel r rem, q.2 < r + rem.length
  | 0, r, rem, hfuel, _, q, hq => by
    have hrem : rem = [] := List.length_eq_zero.mp (Nat.le_zero.mp hfuel)
    subst hrem
    simp [frontRanksAux] at hq
  | fuel + 1, r, rem, hfuel, hlen, q, hq => by
    rcases eq_or_ne rem [] with hrem | hrem
    · subst hrem
      rw [frontRanksAux_nil] at hq
      simp at hq
    · have hfr : rem.filter (undominatedIn senses rem) ≠ [] := by
        obtain ⟨b, hbmem, hbmin⟩ := exists_undominated senses rem hrem hlen
        intro hnil
        have hb : b ∈ rem.filter (undominatedIn senses rem) := by
          rw [List.mem_filter]
          refine ⟨hbmem, ?_⟩
          rw [undominatedIn, Bool.not_eq_true']
          rw [← Bool.not_eq_true, List.any_eq_true]
          rintro ⟨a, hamem, hadom⟩
          rw [hbmin a hamem] at hadom
          exact Bool.false_ne_true hadom
        rw [hnil] at hb
        exact List.not_mem_nil b hb
      have hsplit := (List.filter_append_perm (undominatedIn senses rem) rem).length_eq
      rw [List.length_append] at hsplit
      have hfrpos : 0 < (rem.filter (undominatedIn senses rem)).length :=
        List.length_pos.mpr hfr
      have hrest : (rem.filter (fun b => ! undominatedIn senses rem b)).length
          < rem.length := by omega
      simp only [frontRanksAux, List.mem_append] at hq
      rcases hq with hq | hq
      · obtain ⟨p, -, hpq⟩ := List.mem_map.mp hq
        rw [← hpq]
        have : 0 < rem.length := List.length_pos.mpr hrem
        simp only []
        omega
      · have hres := frontRanksAux_rank_lt senses fuel (r + 1)
          (rem.filter (fun b => ! undominatedIn senses rem b))
          (by omega)
          (fun p hp => hlen p (List.mem_of_mem_filter hp))
          q hq
        omega

/-- Modelled from the spec: the Pareto-front partitioner.  Every candidate of
the population receives a front rank (0 = best, non-dominated); fronts are
stripped one after the other by the fast non-dominated sort. -/
def pareto_ranks (evals : List (List ℚ)) (senses : List Sense) : List ℕ :=
  (List.range evals.length).map
    (fun i => ((frontRanksAux senses evals.length 0 evals.enum).lookup i).getD 0)

/-- Modelled from the spec: the batched Pareto-front partitioner; every batch
slice proceeds independently. -/
def pareto_ranks_batched (batch : List (List (List ℚ))) (senses : List Sense) :
    List (List ℕ) :=
  batch.map (fun evals => pareto_ranks evals senses)

theorem lookup_iff_mem_of_nodup_keys :
    ∀ (l : List (ℕ × ℕ)), (l.map Prod.fst).Nodup →
      ∀ (i r : ℕ), (l.lookup i = some r ↔ (i, r) ∈ l)
  | [], _, i, r => by simp [List.lookup]
  | (k, v) :: t, hnd, i, r => by
    rw [List.map_cons, List.nodup_cons] at hnd
    obtain ⟨hk, hndt⟩ := hnd
    by_cases hik : i = k
    · subst hik
      simp only [List.lookup, beq_self_eq_true, List.mem_cons]
      constructor
      · intro hv
        left
        have : v = r := Option.some.inj hv
        rw [this]
      · rintro (heq | hmem)
        · have : r = v := congrArg Prod.snd heq
          rw [this]
        · exfalso
          apply hk
          exact List.mem_map.mpr ⟨(i, r), hmem, rfl⟩
    · have hbeq : (i == k) = false := beq_eq_false_iff_ne.mpr hik
      simp only [List.lookup, hbeq, List.mem_cons]
      rw [lookup_iff_mem_of_nodup_keys t hndt i r]
      constructor
      · intro h; right; exact h
      · rintro (heq | hmem)
        · exfalso
          exact hik (congrArg Prod.fst heq)
        · exact hmem

theorem lookup_isSome_of_mem_keys :
    ∀ (l : List (ℕ × ℕ)) (i : ℕ), i ∈ l.map Prod.fst → ∃ r, l.lookup i = some r
  | [], i, h => by simp at h
  | (k, v) :: t, i, h => by
    by_cases hik : i = k
    · subst hik
      exact ⟨v, by simp [List.lookup]⟩
    · have hbeq : (i == k) = false := beq_eq_false_iff_ne.mpr hik
      rw [List.map_cons, List.mem_cons] at h
      rcases h with h | h
      · exact absurd h hik
      · obtain ⟨r, hr⟩ := lookup_isSome_of_mem_keys t i h
        exact ⟨r, by simp [List.lookup, hbeq, hr]⟩

theorem frontRanksAux_base_rank_iff (senses : List Sense)
    (fuel r : ℕ) (rem : List (ℕ × List ℚ)) (i : ℕ) :
    ((i, r) ∈ frontRanksAux senses (fuel + 1) r rem ↔
      i ∈ (rem.filter (undominatedIn senses rem)).map Prod.fst) := by
  simp only [frontRanksAux, List.mem_append]
  constructor
  · rintro (h | h)
    · obtain ⟨p, hp, hpq⟩ := List.mem_map.mp h
      have : p.1 = i := congrArg Prod.fst hpq
      exact List.mem_map.mpr ⟨p, hp, this⟩
    · exfalso
      have := frontRanksAux_rank_le senses fuel (r + 1) _ _ h
      simp only [] at this
      omega
  · intro h
    obtain ⟨p, hp, hpi⟩ := List.mem_map.mp h
    left
    exact List.mem_map.mpr ⟨p, hp, by rw [hpi]⟩

theorem frontRanksAux_contiguous (senses : List Sense) {L : ℕ} :
    ∀ (fuel r : ℕ) (rem : List (ℕ × List ℚ)),
      rem.length ≤ fuel →
      (∀ p ∈ rem, p.2.length = L) →
      ∀ s, r ≤ s →
        (∃ i, (i, s + 1) ∈ frontRanksAux senses fuel r rem) →
        ∃ i', (i', s) ∈ frontRanksAux senses fuel r rem
  | 0, r, rem, hfuel, _, s, hrs, hex => by
    have hrem : rem = [] := List.length_eq_zero.mp (Nat.le_zero.mp hfuel)
    subst hrem
    obtain ⟨i, hi⟩ := hex
    simp [frontRanksAux] at hi
  | fuel + 1, r, rem, hfuel, hlen, s, hrs, hex => by
    rcases eq_or_ne rem [] with hrem | hrem
    · subst hrem
      obtain ⟨i, hi⟩ := hex
      rw [frontRanksAux_nil] at hi
      simp at hi
    · obtain ⟨i, hi⟩ := hex
      simp only [frontRanksAux, List.mem_append] at hi
      have hfr : rem.filter (undominatedIn senses rem) ≠ [] := by
        obtain ⟨b, hbmem, hbmin⟩ := exists_undominated senses rem hrem hlen
        intro hnil
        have hb : b ∈ rem.filter (undominatedIn senses rem) := by
          rw [List.mem_filter]
          refine ⟨hbmem, ?_⟩
          rw [undominatedIn, Bool.not_eq_true']
          rw [← Bool.not_eq_true, List.any_eq_true]
          rintro ⟨a, hamem, hadom⟩
          rw [hbmin a hamem] at hadom
          exact Bool.false_ne_true hadom
        rw [hnil] at hb
        exact List.not_mem_nil b hb
      rcases hi with hi | hi
      · exfalso
        obtain ⟨p, -, hpq⟩ := List.mem_map.mp hi
        have : r = s + 1 := congrArg Prod.snd hpq
        omega
      · rcases eq_or_lt_of_le hrs with hsr | hsr
        · subst hsr
          obtain ⟨b, hb⟩ := List.exists_mem_of_ne_nil _ hfr
          refine ⟨b.1, ?_⟩
          simp only [frontRanksAux, List.mem_append]
          left
          exact List.mem_map.mpr ⟨b, hb, rfl⟩
        · have hsplit := (List.filter_append_perm (undominatedIn senses rem) rem).length_eq
          rw [List.length_append] at hsplit
          have hfrpos : 0 < (rem.filter (undominatedIn senses rem)).length :=
            List.length_pos.mpr hfr
          obtain ⟨i', hi'⟩ := frontRanksAux_contiguous senses fuel (r + 1)
            (rem.filter (fun b => ! undominatedIn senses rem b))
            (by omega)
            (fun p hp => hlen p (List.mem_of_mem_filter hp))
            s hsr ⟨i, hi⟩
          refine ⟨i', ?_⟩
          simp only [frontRanksAux, List.mem_append]
          right
          exact hi'

theorem frontRanksAux_front_nonempty (senses : List Sense) {L : ℕ}
    (fuel r : ℕ) (rem : List (ℕ × List ℚ)) (hrem : rem ≠ [])
    (hlen : ∀ p ∈ rem, p.2.length = L) :
    ∃ i, (i, r) ∈ frontRanksAux senses (fuel + 1) r rem := by
  obtain ⟨b, hbmem, hbmin⟩ := exists_undominated senses rem hrem hlen
  refine ⟨b.1, ?_⟩
  rw [frontRanksAux_base_rank_iff]
  refine List.mem_map.mpr ⟨b, ?_, rfl⟩
  rw [List.mem_filter]
  refine ⟨hbmem, ?_⟩
  rw [undominatedIn, Bool.not_eq_true']
  rw [← Bool.not_eq_true, List.any_eq_true]
  rintro ⟨a, hamem, hadom⟩
  rw [hbmin a hamem] at hadom
  exact Bool.false_ne_true hadom

theorem length_pareto_ranks (evals : List (List ℚ)) (senses : List Sense) :
    (pareto_ranks evals senses).length = evals.length := by
  simp [pareto_ranks]

theorem tagged_keys_perm (evals : List (List ℚ)) (senses : List Sense) :
    ((frontRanksAux senses evals.length 0 evals.enum).map Prod.fst).Perm
      (List.range evals.length) := by
  have h := frontRanksAux_keys_perm senses evals.length 0 evals.enum
  rwa [List.enum_map_fst] at h

theorem tagged_keys_nodup (evals : List (List ℚ)) (senses : List Sense) :
    ((frontRanksAux senses evals.length 0 evals.enum).map Prod.fst).Nodup :=
  (tagged_keys_perm evals senses).nodup_iff.mpr (List.nodup_range _)

theorem enum_row_length {evals : List (List ℚ)} {M : ℕ}
    (hM : ∀ row ∈ evals, row.length = M) :
    ∀ p ∈ evals.enum, p.2.length = M := by
  intro p hp
  apply hM
  have : p.2 ∈ List.map Prod.snd evals.enum := List.mem_map.mpr ⟨p, hp, rfl⟩
  rwa [List.enum_map_snd] at this

theorem pareto_ranks_getD (evals : List (List ℚ)) (senses : List Sense)
    (i : ℕ) (hi : i < evals.length) :
    (pareto_ranks evals senses).getD i 0 =
      ((frontRanksAux senses evals.length 0 evals.enum).lookup i).getD 0 := by
  have hlen : i < (pareto_ranks evals senses).length := by
    rw [length_pareto_ranks]; exact hi
  rw [List.getD_eq_getElem _ 0 hlen]
  simp only [pareto_ranks]
  rw [List.getElem_map, List.getElem_range]

theorem pareto_ranks_mem_tagged (evals : List (List ℚ)) (senses : List Sense)
    (i : ℕ) (hi : i < evals.length) :
    (i, (pareto_ranks evals senses).getD i 0) ∈
      frontRanksAux senses evals.length 0 evals.enum := by
  have hkey : i ∈ (frontRanksAux senses evals.length 0 evals.enum).map Prod.fst :=
    (tagged_keys_perm evals senses).mem_iff.mpr (List.mem_range.mpr hi)
  obtain ⟨r, hr⟩ := lookup_isSome_of_mem_keys _ i hkey
  have hmem := (lookup_iff_mem_of_nodup_keys _ (tagged_keys_nodup evals senses) i r).mp hr
  rw [pareto_ranks_getD evals senses i hi, hr]
  exact hmem

theorem pareto_ranks_eq_of_mem_tagged (evals : List (List ℚ)) (senses : List Sense)
    (i rk : ℕ) (hi : i < evals.length)
    (hmem : (i, rk) ∈ frontRanksAux senses evals.length 0 evals.enum) :
    (pareto_ranks evals senses).getD i 0 = rk := by
  have hr := (lookup_iff_mem_of_nodup_keys _ (tagged_keys_nodup evals senses) i rk).mpr hmem
  rw [pareto_ranks_getD evals senses i hi, hr]
  rfl

theorem mem_enum_self (evals : List (List ℚ)) (i : ℕ) (hi : i < evals.length) :
    (i, evals[i]) ∈ evals.enum := by
  rw [List.mem_enum_iff_getElem?]
  exact List.getElem?_eq_getElem hi

theorem pareto_ranks_lt (evals : List (List ℚ)) (senses : List Sense) {M : ℕ}
    (hM : ∀ row ∈ evals, row.length = M)
    (i : ℕ) (hi : i < evals.length) :
    (pareto_ranks evals senses).getD i 0 < evals.length := by
  have hmem := pareto_ranks_mem_tagged evals senses i hi
  have := frontRanksAux_rank_lt senses evals.length 0 evals.enum
    (le_of_eq (List.enum_length)) (enum_row_length hM) _ hmem
  simpa using this

theorem undominatedIn_enum_iff (evals : List (List ℚ)) (senses : List Sense)
    (b : ℕ × List ℚ) :
    (undominatedIn senses evals.enum b = true ↔
      ∀ a ∈ evals, dominates senses a b.2 = false) := by
  rw [undominatedIn, Bool.not_eq_true', ← Bool.not_eq_true, List.any_eq_true]
  constructor
  · intro hno a hamem
    rw [← Bool.not_eq_true]
    intro hdom
    apply hno
    obtain ⟨k, hk, hka⟩ := List.mem_iff_getElem.mp hamem
    refine ⟨(k, a), ?_, hdom⟩
    rw [← hka]
    exact mem_enum_self evals k hk
  · rintro hall ⟨p, hpmem, hpdom⟩
    have hsnd : p.2 ∈ evals := by
      have : p.2 ∈ List.map Prod.snd evals.enum := List.mem_map.mpr ⟨p, hpmem, rfl⟩
      rwa [List.enum_map_snd] at this
    rw [hall p.2 hsnd] at hpdom
    exact Bool.false_ne_true hpdom

theorem domination_counts_getD (evals : List (List ℚ)) (senses : List Sense)
    (i : ℕ) (hi : i < evals.length) :
    (domination_counts evals senses).getD i 0 =
      (evals.filter (fun a => dominates senses a evals[i])).length := by
  have hlen : i < (domination_counts evals senses).length := by
    simp only [domination_counts, List.length_map]; exact hi
  rw [List.getD_eq_getElem _ 0 hlen]
  simp only [domination_counts]
  rw [List.getElem_map]

theorem pareto_ranks_zero_iff (evals : List (List ℚ)) (senses : List Sense)
    (i : ℕ) (hi : i < evals.length) :
    ((pareto_ranks evals senses).getD i 0 = 0 ↔
      (domination_counts evals senses).getD i 0 = 0) := by
  have hN : 0 < evals.length := lt_of_le_of_lt (Nat.zero_le i) hi
  have hfuel : evals.length = (evals.length - 1) + 1 := (Nat.succ_pred_eq_of_pos hN).symm
  rw [domination_counts_getD evals senses i hi, List.length_eq_zero,
    List.filter_eq_nil_iff]
  constructor
  · intro h0
    have hmem := pareto_ranks_mem_tagged evals senses i hi
    rw [h0, hfuel, frontRanksAux_base_rank_iff] at hmem
    obtain ⟨p, hp, hpi⟩ := List.mem_map.mp hmem
    rw [List.mem_filter] at hp
    obtain ⟨hpmem, hpund⟩ := hp
    have hrow : p.2 = evals[i] := by
      have := List.mem_enum_iff_getElem?.mp hpmem
      rw [hpi, List.getElem?_eq_getElem hi] at this
      exact (Option.some.inj this).symm
    intro a hamem
    have := (undominatedIn_enum_iff evals senses p).mp hpund a hamem
    rw [hrow] at this
    exact Bool.eq_false_iff.mp this
  · intro hall
    apply pareto_ranks_eq_of_mem_tagged evals senses i 0 hi
    rw [hfuel, frontRanksAux_base_rank_iff]
    refine List.mem_map.mpr ⟨(i, evals[i]), ?_, rfl⟩
    rw [List.mem_filter]
    refine ⟨mem_enum_self evals i hi, ?_⟩
    exact (undominatedIn_enum_iff evals senses (i, evals[i])).mpr
      (fun a ha => Bool.eq_false_iff.mpr (hall a ha))

theorem pareto_ranks_contiguous (evals : List (List ℚ)) (senses : List Sense) {M : ℕ}
    (hM : ∀ row ∈ evals, row.length = M) (r : ℕ)
    (hex : ∃ i, i < evals.length ∧ (pareto_ranks evals senses).getD i 0 = r + 1) :
    ∃ j, j < evals.length ∧ (pareto_ranks evals senses).getD j 0 = r := by
  obtain ⟨i, hi, hr⟩ := hex
  have hmem := pareto_ranks_mem_tagged evals senses i hi
  rw [hr] at hmem
  obtain ⟨j, hj⟩ := frontRanksAux_contiguous senses evals.length 0 evals.enum
    (le_of_eq List.enum_length) (enum_row_length hM) r (Nat.zero_le r) ⟨i, hmem⟩
  have hjlt : j < evals.length := by
    have : j ∈ (frontRanksAux senses evals.length 0 evals.enum).map Prod.fst :=
      List.mem_map.mpr ⟨(j, r), hj, rfl⟩
    exact List.mem_range.mp ((tagged_keys_perm evals senses).mem_iff.mp this)
  exact ⟨j, hjlt, pareto_ranks_eq_of_mem_tagged evals senses j r hjlt hj⟩

theorem pareto_ranks_exists_zero (evals : List (List ℚ)) (senses : List Sense) {M : ℕ}
    (hM : ∀ row ∈ evals, row.length = M) (hN : 0 < evals.length) :
    ∃ i, i < evals.length ∧ (pareto_ranks evals senses).getD i 0 = 0 := by
  have hfuel : evals.length = (evals.length - 1) + 1 := (Nat.succ_pred_eq_of_pos hN).symm
  have henum : evals.enum ≠ [] := by
    intro h
    have := List.enum_length (l := evals)
    rw [h] at this
    simp at this
    omega
  obtain ⟨i, hi⟩ := frontRanksAux_front_nonempty senses (evals.length - 1) 0 evals.enum
    henum (enum_row_length hM)
  rw [← hfuel] at hi
  have hilt : i < evals.length := by
    have : i ∈ (frontRanksAux senses evals.length 0 evals.enum).map Prod.fst :=
      List.mem_map.mpr ⟨(i, 0), hi, rfl⟩
    exact List.mem_range.mp ((tagged_keys_perm evals senses).mem_iff.mp this)
  exact ⟨i, hilt, pareto_ranks_eq_of_mem_tagged evals senses i 0 hilt hi⟩

/-- Modelled from the spec: the members of front `r`, in original index
order. -/
def frontIndices (ranks : List ℕ) (r : ℕ) : List ℕ :=
  (List.range ranks.length).filter (fun i => ranks.getD i 0 == r)

/-- Modelled from the spec: the fronts in increasing rank order (a population
of size `N` has at most `N` fronts; absent ranks give empty lists). -/
def frontsList (ranks : List ℕ) : List (List ℕ) :=
  (List.range ranks.length).map (fun r => frontIndices ranks r)

theorem buckets_flatten_perm (l : List ℕ) (key : ℕ → ℕ) :
    ∀ (N : ℕ),
      (((List.range N).map (fun r => l.filter (fun i => key i == r))).flatten).Perm
        (l.filter (fun i => decide (key i < N)))
  | 0 => by
    simp
  | N + 1 => by
    rw [List.range_succ, List.map_append, List.flatten_append]
    simp only [List.map_cons, List.map_nil, List.flatten_cons, List.flatten_nil,
      List.append_nil]
    have hIH := buckets_flatten_perm l key N
    have hsplit := List.filter_append_perm (fun i => key i == N)
      (l.filter (fun i => decide (key i < N + 1)))
    rw [List.filter_filter, List.filter_filter] at hsplit
    have he1 : l.filter (fun i => (key i == N) && decide (key i < N + 1))
        = l.filter (fun i => key i == N) := by
      apply List.filter_congr
      intro x hx
      by_cases h : key x = N
      · simp [h]
      · simp [h]
    have he2 : l.filter (fun i => (!(key i == N)) && decide (key i < N + 1))
        = l.filter (fun i => decide (key i < N)) := by
      apply List.filter_congr
      intro x hx
      by_cases h : key x = N
      · simp [h]
      · by_cases h2 : key x < N
        · have : key x < N + 1 := by omega
          simp [h, h2, this]
        · have : ¬ (key x < N + 1) := by omega
          simp [h, h2, this]
    rw [he1, he2] at hsplit
    exact ((hIH.append_right _).trans List.perm_append_comm).trans hsplit

theorem fronts_flatten_perm (ranks : List ℕ)
    (hcov : ∀ i ∈ List.range ranks.length, ranks.getD i 0 < ranks.length) :
    ((frontsList ranks).flatten).Perm (List.range ranks.length) := by
  have h := buckets_flatten_perm (List.range ranks.length)
    (fun i => ranks.getD i 0) ranks.length
  have hself : (List.range ranks.length).filter
      (fun i => decide (ranks.getD i 0 < ranks.length)) = List.range ranks.length := by
    rw [List.filter_eq_self]
    intro a ha
    exact decide_eq_true (hcov a ha)
  rw [hself] at h
  exact h

/-- The minimum of a list of rationals (0 for an empty list). -/
def listMin : List ℚ → ℚ
  | [] => 0
  | v :: vs => vs.foldl min v

/-- The maximum of a list of rationals (0 for an empty list). -/
def listMax : List ℚ → ℚ
  | [] => 0
  | v :: vs => vs.foldl max v

theorem foldl_min_mem : ∀ (l : List ℚ) (a : ℚ), l.foldl min a ∈ a :: l
  | [], a => by simp
  | x :: t, a => by
    simp only [List.foldl_cons]
    have h := foldl_min_mem t (min a x)
    rcases List.mem_cons.mp h with h | h
    · rcases min_choice a x with hm | hm
      · rw [h, hm]
        exact List.mem_cons_self _ _
      · rw [h, hm]
        exact List.mem_cons_of_mem _ (List.mem_cons_self _ _)
    · exact List.mem_cons_of_mem _ (List.mem_cons_of_mem _ h)

theorem foldl_min_le : ∀ (l : List ℚ) (a x : ℚ), x ∈ a :: l → l.foldl min a ≤ x
  | [], a, x, hx => by
    rw [List.mem_singleton.mp hx]
    simp
  | y :: t, a, x, hx => by
    simp only [List.foldl_cons]
    rcases List.mem_cons.mp hx with rfl | hx
    · have h1 : t.foldl min (min x y) ≤ min x y :=
        foldl_min_le t (min x y) (min x y) (List.mem_cons_self _ _)
      exact le_trans h1 (min_le_left x y)
    · rcases List.mem_cons.mp hx with rfl | hx
      · have h1 : t.foldl min (min a x) ≤ min a x :=
          foldl_min_le t (min a x) (min a x) (List.mem_cons_self _ _)
        exact le_trans h1 (min_le_right a x)
      · exact foldl_min_le t (min a y) x (List.mem_cons_of_mem _ hx)

theorem foldl_max_mem : ∀ (l : List ℚ) (a : ℚ), l.foldl max a ∈ a :: l
  | [], a => by simp
  | x :: t, a => by
    simp only [List.foldl_cons]
    have h := foldl_max_mem t (max a x)
    rcases List.mem_cons.mp h with h | h
    · rcases max_choice a x with hm | hm
      · rw [h, hm]
        exact List.mem_cons_self _ _
      · rw [h, hm]
        exact List.mem_cons_of_mem _ (List.mem_cons_self _ _)
    · exact List.mem_cons_of_mem _ (List.mem_cons_of_mem _ h)

theorem le_foldl_max : ∀ (l : List ℚ) (a x : ℚ), x ∈ a :: l → x ≤ l.foldl max a
  | [], a, x, hx => by
    rw [List.mem_singleton.mp hx]
    simp
  | y :: t, a, x, hx => by
    simp only [List.foldl_cons]
    rcases List.mem_cons.mp hx with rfl | hx
    · have h1 : max x y ≤ t.foldl max (max x y) :=
        le_foldl_max t (max x y) (max x y) (List.mem_cons_self _ _)
      exact le_trans (le_max_left x y) h1
    · rcases List.mem_cons.mp hx with rfl | hx
      · have h1 : max a x ≤ t.foldl max (max a x) :=
          le_foldl_max t (max a x) (max a x) (List.mem_cons_self _ _)
        exact le_trans (le_max_right a x) h1
      · exact le_foldl_max t (max a y) x (List.mem_cons_of_mem _ hx)

theorem listMin_mem (l : List ℚ) (h : l ≠ []) : listMin l ∈ l := by
  match l with
  | [] => exact absurd rfl h
  | v :: vs => exact foldl_min_mem vs v

theorem listMin_le (l : List ℚ) (x : ℚ) (hx : x ∈ l) : listMin l ≤ x := by
  match l with
  | [] => simp at hx
  | v :: vs => exact foldl_min_le vs v x hx

theorem listMax_mem (l : List ℚ) (h : l ≠ []) : listMax l ∈ l := by
  match l with
  | [] => exact absurd rfl h
  | v :: vs => exact foldl_max_mem vs v

theorem le_listMax (l : List ℚ) (x : ℚ) (hx : x ∈ l) : x ≤ listMax l := by
  match l with
  | [] => simp at hx
  | v :: vs => exact le_foldl_max vs v x hx

/-- The evaluation values of one objective across the members of a front. -/
def colVals (front : List (List ℚ)) (j : ℕ) : List ℚ :=
  front.map (fun row => row.getD j 0)

/-- The values of one objective sorted ascending ("sort front members by that
objective's value"). -/
def sortedCol (vals : List ℚ) : List ℚ :=
  vals.mergeSort (fun a b => decide (a ≤ b))

/-- The position member `i` takes when the front members are sorted (stably,
ties broken by original index) by the given objective values. -/
def stablePos (vals : List ℚ) (i : ℕ) : ℕ :=
  (vals.take i).countP (fun w => decide (w ≤ vals.getD i 0)) +
    (vals.drop i).countP (fun w => decide (w < vals.getD i 0))

/-- Modelled from the spec: the crowding contribution of front member `i` for
objective `j`: 0 when the objective is constant over the front (avoiding
division by zero), infinite (`none`) when the member holds the smallest or
largest value of that objective, otherwise
`(value[next] - value[prev]) / (objective_max - objective_min)` over the front
members sorted by that objective. -/
def crowdContrib (front : List (List ℚ)) (j : ℕ) (i : ℕ) : Option ℚ :=
  if listMax (colVals front j) = listMin (colVals front j) then some 0
  else if (colVals front j).getD i 0 = listMin (colVals front j) ∨
      (colVals front j).getD i 0 = listMax (colVals front j) then none
  else
    some (((sortedCol (colVals front j)).getD (stablePos (colVals front j) i + 1) 0 -
        (sortedCol (colVals front j)).getD (stablePos (colVals front j) i - 1) 0) /
      (listMax (colVals front j) - listMin (colVals front j)))

/-- Addition of crowding contributions; `none` is the infinite contribution
and absorbs every sum. -/
def addInf : Option ℚ → Option ℚ → Option ℚ
  | some a, some b => some (a + b)
  | _, _ => none

/-- Sum of crowding contributions across objectives. -/
def sumInf (l : List (Option ℚ)) : Option ℚ :=
  l.foldr addInf (some 0)

/-- The number of objectives of a front (the length of its first row). -/
def numObjectives (front : List (List ℚ)) : ℕ :=
  (front.headD []).length

/-- Modelled from the spec: the crowding-distance estimator.  Each front
member receives the sum across objectives of its crowding contributions. -/
def crowding_distances (front : List (List ℚ)) : List (Option ℚ) :=
  (List.range front.length).map
    (fun i => sumInf ((List.range (numObjectives front)).map
      (fun j => crowdContrib front j i)))

/-- Descending comparison of crowding distances; the infinite distance
(`none`) comes first, ties keep the original (front) order. -/
def descCrowdLe (x y : ℕ × Option ℚ) : Bool :=
  match x.2, y.2 with
  | none, _ => true
  | some _, none => false
  | some a, some b => decide (b ≤ a)

/-- Modelled from the spec: reorder the members of an overflowing front by
descending crowding distance (computed from that front's evaluations). -/
def crowd_order (evals : List (List ℚ)) (f : List ℕ) : List ℕ :=
  ((f.zip (crowding_distances (f.map (fun i => evals.getD i [])))).mergeSort
      descCrowdLe).map Prod.fst

/-- Modelled from the spec: consume fronts in increasing rank order; a front
that fits entirely within the remaining budget is taken whole, the first
overflowing front is cut to the remaining budget (ordered by descending
crowding distance when crowd-sort is requested, otherwise by original index
order). -/
def consumeFronts (evals : List (List ℚ)) (crowdsort : Bool) :
    List (List ℕ) → ℕ → List ℕ
  | [], _ => []
  | f :: rest, budget =>
    if f.length ≤ budget then f ++ consumeFronts evals crowdsort rest (budget - f.length)
    else (if crowdsort then crowd_order evals f else f).take budget

/-- Select rows of a population (or evaluation) array by index. -/
def gather (rows : List (List ℚ)) (idxs : List ℕ) : List (List ℚ) :=
  idxs.map (fun i => rows.getD i [])

/-- Modelled from the spec: the error taxonomy of the public operations. -/
inductive OpError where
  | shapeMismatch : OpError
  | truncationOverflow : OpError
  | emptyPopulation : OpError
deriving DecidableEq

/-- Modelled from the spec: the truncation selector `take_best`.  Validation
happens first (fail fast): a population/evaluation shape mismatch or a target
size exceeding the extended population size is rejected before any
computation.  Otherwise the fronts are consumed in rank order and exactly
`target` survivors are returned, in front order; within the single split
front members are ordered by descending crowding distance when `crowdsort` is
requested (and the problem is multi-objective), otherwise by original index.
The single-objective path ignores `crowdsort` (explicit degenerate branch). -/
def take_best (pop evals : List (List ℚ)) (target : ℕ) (senses : List Sense)
    (crowdsort : Bool) : Except OpError (List (List ℚ) × List (List ℚ)) :=
  if pop.length ≠ evals.length then Except.error OpError.shapeMismatch
  else if pop.length < target then Except.error OpError.truncationOverflow
  else
    let ranks := pareto_ranks evals senses
    let useCrowd := crowdsort && decide (2 ≤ senses.length)
    let sel := consumeFronts evals useCrowd (frontsList ranks) target
    Except.ok (gather pop sel, gather evals sel)

/-- Collect the per-slice results of a batched operation, propagating the
first error. -/
def mapExcept : List (Except OpError α) → Except OpError (List α)
  | [] => Except.ok []
  | Except.error e :: _ => Except.error e
  | Except.ok a :: xs =>
    match mapExcept xs with
    | Except.ok as => Except.ok (a :: as)
    | Except.error e => Except.error e

/-- Modelled from the spec: the batched truncation selector; every batch
slice proceeds independently. -/
def take_best_batched (pops evalss : List (List (List ℚ))) (target : ℕ)
    (senses : List Sense) (crowdsort : Bool) :
    Except OpError (List (List (List ℚ) × List (List ℚ))) :=
  if pops.length ≠ evalss.length then Except.error OpError.shapeMismatch
  else mapExcept ((pops.zip evalss).map
    (fun pe => take_best pe.1 pe.2 target senses crowdsort))

/-- Follows the spec's words for the single-objective degenerate case: take
the `target` best candidates by raw objective value (per the sense), ties
broken by original index order (stable). -/
def take_best_single_spec (pop evals : List (List ℚ)) (target : ℕ) (sense : Sense) :
    Except OpError (List (List ℚ) × List (List ℚ)) :=
  if pop.length ≠ evals.length then Except.error OpError.shapeMismatch
  else if pop.length < target then Except.error OpError.truncationOverflow
  else
    Except.ok
      (gather pop (((List.range evals.length).mergeSort
          (fun i j => decide (val1 sense (evals.getD i []) < val1 sense (evals.getD j []) ∨
            (val1 sense (evals.getD i []) = val1 sense (evals.getD j []) ∧
              i ≤ j)))).take target),
       gather evals (((List.range evals.length).mergeSort
          (fun i j => decide (val1 sense (evals.getD i []) < val1 sense (evals.getD j []) ∨
            (val1 sense (evals.getD i []) = val1 sense (evals.getD j []) ∧
              i ≤ j)))).take target))

/-- Modelled from the spec and the notebook call
`take_best(parents, parent_evals, objective_sense="min")`: without a target
count the selector returns one best candidate as a single (decision vector,
evaluation) pair. -/
def take_best_default (pop : List (List ℚ)) (evals : List ℚ) (sense : Sense) :
    Except OpError (List ℚ × ℚ) :=
  if pop.length ≠ evals.length then Except.error OpError.shapeMismatch
  else if evals.length = 0 then Except.error OpError.emptyPopulation
  else
    let i := List.findIdx
      (fun v => normalize sense v == listMin (evals.map (normalize sense))) evals
    Except.ok (pop.getD i [], evals.getD i 0)

theorem length_crowding_distances (front : List (List ℚ)) :
    (crowding_distances front).length = front.length := by
  simp [crowding_distances]

theorem length_crowd_order (evals : List (List ℚ)) (f : List ℕ) :
    (crowd_order evals f).length = f.length := by
  simp only [crowd_order, List.length_map, List.length_mergeSort, List.length_zip,
    length_crowding_distances]
  simp

theorem length_consumeFronts (evals : List (List ℚ)) (crowdsort : Bool) :
    ∀ (fronts : List (List ℕ)) (budget : ℕ),
      (consumeFronts evals crowdsort fronts budget).length =
        min budget fronts.flatten.length
  | [], budget => by simp [consumeFronts]
  | f :: rest, budget => by
    simp only [consumeFronts, List.flatten_cons, List.length_append]
    by_cases h : f.length ≤ budget
    · rw [if_pos h]
      rw [List.length_append]
      rw [length_consumeFronts evals crowdsort rest (budget - f.length)]
      omega
    · rw [if_neg h]
      by_cases hc : crowdsort
      · rw [if_pos hc, List.length_take, length_crowd_order]
        omega
      · rw [if_neg hc, List.length_take]
        omega

theorem consumeFronts_false_eq_take (evals : List (List ℚ)) :
    ∀ (fronts : List (List ℕ)) (budget : ℕ),
      consumeFronts evals false fronts budget = fronts.flatten.take budget
  | [], budget => by simp [consumeFronts]
  | f :: rest, budget => by
    simp only [consumeFronts, List.flatten_cons, Bool.false_eq_true, if_false]
    by_cases h : f.length ≤ budget
    · rw [if_pos h, consumeFronts_false_eq_take evals rest (budget - f.length),
        List.take_append_eq_append_take, List.take_of_length_le h]
    · rw [if_neg h, List.take_append_eq_append_take]
      have h1 : budget - f.length = 0 := by omega
      rw [h1, List.take_zero, List.append_nil]

theorem map_getD_range {α : Type} (l : List α) (d : α) :
    (List.range l.length).map (fun i => l.getD i d) = l := by
  apply List.ext_getElem
  · simp
  · intro n h1 h2
    rw [List.getElem_map, List.getElem_range]
    exact List.getD_eq_getElem l d h2

theorem range_toFinset (N : ℕ) : (List.range N).toFinset = Finset.range N := by
  ext x
  simp [List.mem_toFinset, List.mem_range, Finset.mem_range]

theorem filter_length_eq_card (evals : List (List ℚ)) (p : List ℚ → Bool) :
    (evals.filter p).length =
      ((Finset.range evals.length).filter (fun a => p (evals.getD a []) = true)).card := by
  have h1 : evals.filter p =
      ((List.range evals.length).map (fun i => evals.getD i [])).filter p := by
    rw [map_getD_range]
  rw [h1, ← List.countP_eq_length_filter, List.countP_map,
    List.countP_eq_length_filter, ← range_toFinset, ← List.toFinset_filter,
    List.toFinset_card_of_nodup (List.Nodup.filter _ (List.nodup_range _))]
  rfl

/-- C1: for every batched evaluation array (one optional leading batch
dimension) and every objective-sense vector, the domination-count operation
returns one integer array per batch slice, of the slice's population size,
whose entry `i` equals the number of other candidates `a ≠ i` of the same
slice that dominate candidate `i` (no worse on every normalized objective,
strictly better on at least one); candidates equal on every objective
contribute no domination in either direction. -/
theorem domination_counts_matches_spec (batch : List (List (List ℚ)))
    (senses : List Sense) :
    (domination_counts_batched batch senses).length = batch.length ∧
    (∀ b, b < batch.length →
      (domination_counts_batched batch senses).getD b [] =
        domination_counts (batch.getD b []) senses) ∧
    (∀ evals : List (List ℚ),
      (domination_counts evals senses).length = evals.length ∧
      (∀ i, i < evals.length →
        (domination_counts evals senses).getD i 0 =
          ((Finset.range evals.length).filter
            (fun a => a ≠ i ∧
              dominates senses (evals.getD a []) (evals.getD i []) = true)).card)) ∧
    (∀ a b : List ℚ, a = b →
      dominates senses a b = false ∧ dominates senses b a = false) := by
  refine ⟨by simp [domination_counts_batched], ?_, ?_, ?_⟩
  · intro b hb
    simp only [domination_counts_batched]
    have hlen : b < (batch.map (fun evals => domination_counts evals senses)).length := by
      simpa using hb
    rw [List.getD_eq_getElem _ [] hlen, List.getElem_map,
      List.getD_eq_getElem _ [] hb]
  · intro evals
    refine ⟨by simp [domination_counts], ?_⟩
    intro i hi
    rw [domination_counts_getD evals senses i hi]
    rw [filter_length_eq_card evals (fun a => dominates senses a evals[i])]
    have hgdi : evals.getD i [] = evals[i] := List.getD_eq_getElem evals [] hi
    simp only [hgdi]
    congr 1
    apply Finset.filter_congr
    intro a hamem
    rw [Finset.mem_range] at hamem
    constructor
    · intro h
      refine ⟨?_, h⟩
      intro hai
      rw [hai, List.getD_eq_getElem evals [] hi, dominates_self] at h
      exact Bool.false_ne_true h
    · intro h
      exact h.2
  · intro a b hab
    subst hab
    exact ⟨dominates_self senses a, dominates_self senses a⟩

theorem take_best_ok_exact {M : ℕ} (pop evals : List (List ℚ))
    (senses : List Sense) (target : ℕ) (crowdsort : Bool)
    (hshape : pop.length = evals.length)
    (hM : ∀ row ∈ evals, row.length = M)
    (htarget : target ≤ evals.length) :
    ∃ spop sevals,
      take_best pop evals target senses crowdsort = Except.ok (spop, sevals) ∧
      spop.length = target ∧ sevals.length = target := by
  have hcov : ∀ i ∈ List.range (pareto_ranks evals senses).length,
      (pareto_ranks evals senses).getD i 0 < (pareto_ranks evals senses).length := by
    intro i hi
    rw [length_pareto_ranks] at hi ⊢
    exact pareto_ranks_lt evals senses hM i (List.mem_range.mp hi)
  have hperm := fronts_flatten_perm (pareto_ranks evals senses) hcov
  have hflat : (frontsList (pareto_ranks evals senses)).flatten.length = evals.length := by
    rw [hperm.length_eq, List.length_range, length_pareto_ranks]
  have hsel : ∀ (c : Bool),
      (consumeFronts evals c (frontsList (pareto_ranks evals senses)) target).length
        = target := by
    intro c
    rw [length_consumeFronts, hflat]
    omega
  have hok : take_best pop evals target senses crowdsort =
      Except.ok
        (gather pop (consumeFronts evals (crowdsort && decide (2 ≤ senses.length))
            (frontsList (pareto_ranks evals senses)) target),
         gather evals (consumeFronts evals (crowdsort && decide (2 ≤ senses.length))
            (frontsList (pareto_ranks evals senses)) target)) := by
    simp only [take_best]
    rw [if_neg (by omega), if_neg (by omega)]
  refine ⟨_, _, hok, ?_, ?_⟩
  · simp only [gather, List.length_map]
    exact hsel _
  · simp only [gather, List.length_map]
    exact hsel _

/-- C5: every call to `take_best` whose target survivor count exceeds the
available extended population size is rejected with the invalid-argument
(truncation overflow) error; the result is never a silently clamped or padded
success. -/
theorem take_best_overflow_rejected (pop evals : List (List ℚ))
    (senses : List Sense) (target : ℕ) (crowdsort : Bool)
    (hshape : pop.length = evals.length)
    (hover : evals.length < target) :
    take_best pop evals target senses crowdsort =
        Except.error OpError.truncationOverflow ∧
      ∀ result, take_best pop evals target senses crowdsort ≠ Except.ok result := by
  have herr : take_best pop evals target senses crowdsort =
      Except.error OpError.truncationOverflow := by
    simp only [take_best]
    rw [if_neg (by omega), if_pos (by omega)]
  refine ⟨herr, ?_⟩
  intro result hok
  rw [herr] at hok
  exact Except.noConfusion hok

/-- C3: for every evaluation array of uniform objective count and every sense
vector, candidates of domination count 0 are exactly the candidates of front
rank 0; every candidate receives exactly one front rank (the fronts partition
the population) and front ranks are numbered contiguously from 0. -/
theorem front_partition_matches_spec {M : ℕ} (evals : List (List ℚ))
    (senses : List Sense) (hM : ∀ row ∈ evals, row.length = M) :
    (pareto_ranks evals senses).length = evals.length ∧
    (domination_counts evals senses).length = evals.length ∧
    (∀ i, i < evals.length →
      ((pareto_ranks evals senses).getD i 0 = 0 ↔
        (domination_counts evals senses).getD i 0 = 0)) ∧
    ((frontsList (pareto_ranks evals senses)).flatten).Perm
      (List.range evals.length) ∧
    (∀ r : ℕ,
      (∃ i, i < evals.length ∧ (pareto_ranks evals senses).getD i 0 = r + 1) →
      ∃ j, j < evals.length ∧ (pareto_ranks evals senses).getD j 0 = r) ∧
    (0 < evals.length →
      ∃ i, i < evals.length ∧ (pareto_ranks evals senses).getD i 0 = 0) := by
  refine ⟨length_pareto_ranks evals senses, by simp [domination_counts],
    pareto_ranks_zero_iff evals senses, ?_,
    fun r => pareto_ranks_contiguous evals senses hM r,
    pareto_ranks_exists_zero evals senses hM⟩
  have hcov : ∀ i ∈ List.range (pareto_ranks evals senses).length,
      (pareto_ranks evals senses).getD i 0 < (pareto_ranks evals senses).length := by
    intro i hi
    rw [length_pareto_ranks] at hi ⊢
    exact pareto_ranks_lt evals senses hM i (List.mem_range.mp hi)
  have h := fronts_flatten_perm (pareto_ranks evals senses) hcov
  rwa [length_pareto_ranks] at h

/-- C4 (counterexample): on the spec's concrete scenario
`[[0,0],[1,1],[2,2],[0,2],[2,0]]` with both objectives minimized, the
partition is NOT front 0 = only `[0,0]`, front 1 = only `[1,1]`,
front 2 = the remaining three. -/
theorem concrete_scenario_fronts_ne :
    pareto_ranks [[0,0],[1,1],[2,2],[0,2],[2,0]]
        [Sense.minimize, Sense.minimize] ≠ [0, 1, 2, 2, 2] := by
  decide

/-- C4 (amended): on the concrete scenario the partition is
front 0 = `{[0,0]}`, front 1 = `{[1,1],[0,2],[2,0]}` (mutually
non-dominating once `[0,0]` is removed), front 2 = `{[2,2]}`. -/
theorem concrete_scenario_fronts :
    pareto_ranks [[0,0],[1,1],[2,2],[0,2],[2,0]]
        [Sense.minimize, Sense.minimize] = [0, 1, 2, 1, 1] := by
  decide

/-- Witness for C1 at a concrete two-candidate population. -/
theorem domination_counts_matches_spec_witness :
    (domination_counts [[(0 : ℚ)], [1]] [Sense.minimize]).getD 1 0 =
      ((Finset.range ([[(0 : ℚ)], [1]] : List (List ℚ)).length).filter
        (fun a => a ≠ 1 ∧
          dominates [Sense.minimize] (([[(0 : ℚ)], [1]] : List (List ℚ)).getD a [])
            (([[(0 : ℚ)], [1]] : List (List ℚ)).getD 1 []) = true)).card :=
  ((domination_counts_matches_spec [[[(0 : ℚ)], [1]]] [Sense.minimize]).2.2.1
    [[(0 : ℚ)], [1]]).2 1 (by decide)

/-- Witness for C3 at a concrete two-candidate population. -/
theorem front_partition_matches_spec_witness :
    ((pareto_ranks [[(0 : ℚ)], [1]] [Sense.minimize]).getD 0 0 = 0 ↔
      (domination_counts [[(0 : ℚ)], [1]] [Sense.minimize]).getD 0 0 = 0) :=
  (@front_partition_matches_spec 1 [[(0 : ℚ)], [1]] [Sense.minimize]
    (by decide)).2.2.1 0 (by decide)

/-- Witness for C5: target 2 with only one candidate available is rejected. -/
theorem take_best_overflow_rejected_witness :
    take_best [[(1 : ℚ)]] [[(1 : ℚ)]] 2 [Sense.minimize] false =
      Except.error OpError.truncationOverflow :=
  (take_best_overflow_rejected [[(1 : ℚ)]] [[(1 : ℚ)]] [Sense.minimize] 2 false
    (by decide) (by decide)).1

theorem mapExcept_ok {α : Type} :
    ∀ (l : List (Except OpError α)) (L : List α),
      mapExcept l = Except.ok L →
      L.length = l.length ∧
        ∀ i, ∀ h1 : i < l.length, ∀ h2 : i < L.length, l[i] = Except.ok L[i]
  | [], L, h => by
    simp only [mapExcept] at h
    have hL : [] = L := Except.ok.inj h
    subst hL
    exact ⟨rfl, by intro i h1 h2; simp at h1⟩
  | Except.error e :: xs, L, h => by
    simp [mapExcept] at h
  | Except.ok a :: xs, L, h => by
    cases hxs : mapExcept xs with
    | error e =>
      simp only [mapExcept, hxs] at h
      exact absurd h (by simp)
    | ok as =>
      simp only [mapExcept, hxs] at h
      have hL : a :: as = L := Except.ok.inj h
      subst hL
      obtain ⟨hlen, hall⟩ := mapExcept_ok xs as hxs
      refine ⟨by simp [hlen], ?_⟩
      intro i h1 h2
      cases i with
      | zero => simp
      | succ n =>
        simp only [List.getElem_cons_succ]
        exact hall n (by simpa using h1) (by simpa using h2)

/-- C7: batch independence.  For every batched input and every batch index,
the per-slice result of the batched domination-count, Pareto-partition and
truncation operations is identical to running the same operation on that
slice alone; no information crosses batch slices. -/
theorem batch_independence (senses : List Sense) :
    (∀ (batch : List (List (List ℚ))) (b : ℕ), b < batch.length →
      (domination_counts_batched batch senses).getD b [] =
        domination_counts (batch.getD b []) senses) ∧
    (∀ (batch : List (List (List ℚ))) (b : ℕ), b < batch.length →
      (pareto_ranks_batched batch senses).getD b [] =
        pareto_ranks (batch.getD b []) senses) ∧
    (∀ (pops evalss : List (List (List ℚ))) (target : ℕ) (crowdsort : Bool)
        (L : List (List (List ℚ) × List (List ℚ))),
      pops.length = evalss.length →
      take_best_batched pops evalss target senses crowdsort = Except.ok L →
      L.length = pops.length ∧
        ∀ b, b < pops.length →
          take_best (pops.getD b []) (evalss.getD b []) target senses crowdsort =
            Except.ok (L.getD b ([], []))) := by
  refine ⟨?_, ?_, ?_⟩
  · intro batch b hb
    have hlen : b < (domination_counts_batched batch senses).length := by
      simpa [domination_counts_batched] using hb
    rw [List.getD_eq_getElem _ [] hlen, List.getD_eq_getElem _ [] hb]
    simp only [domination_counts_batched]
    rw [List.getElem_map]
  · intro batch b hb
    have hlen : b < (pareto_ranks_batched batch senses).length := by
      simpa [pareto_ranks_batched] using hb
    rw [List.getD_eq_getElem _ [] hlen, List.getD_eq_getElem _ [] hb]
    simp only [pareto_ranks_batched]
    rw [List.getElem_map]
  · intro pops evalss target crowdsort L hp hok
    simp only [take_best_batched] at hok
    rw [if_neg (by omega)] at hok
    obtain ⟨hlen, hall⟩ := mapExcept_ok _ L hok
    have hziplen : ((pops.zip evalss).map
        (fun pe => take_best pe.1 pe.2 target senses crowdsort)).length
        = pops.length := by
      simp [List.length_zip]
      omega
    refine ⟨by rw [hlen, hziplen], ?_⟩
    intro b hb
    have h1 : b < ((pops.zip evalss).map
        (fun pe => take_best pe.1 pe.2 target senses crowdsort)).length := by
      rw [hziplen]; exact hb
    have h2 : b < L.length := by rw [hlen, hziplen]; exact hb
    have hel := hall b h1 h2
    rw [List.getElem_map, List.getElem_zip] at hel
    have hgp : pops.getD b [] = pops[b] := List.getD_eq_getElem pops [] hb
    have hge : evalss.getD b [] = evalss[b] :=
      List.getD_eq_getElem evalss [] (by omega)
    have hgL : L.getD b ([], []) = L[b] := List.getD_eq_getElem L _ h2
    rw [hgp, hge, hgL]
    exact hel

/-- Witness for C7 at a concrete one-slice batch. -/
theorem batch_independence_witness :
    (pareto_ranks_batched [[[(0 : ℚ)], [1]]] [Sense.minimize]).getD 0 [] =
      pareto_ranks ([[[(0 : ℚ)], [1]]].getD 0 []) [Sense.minimize] :=
  (batch_independence [Sense.minimize]).2.1 [[[(0 : ℚ)], [1]]] 0 (by decide)

/-- C10: calling `take_best` without a target count on a population with
matching single-objective evaluations returns a single (decision vector,
evaluation) pair of one best candidate of the population — not a
population of size 1 and not an error. -/
theorem take_best_default_spec (pop : List (List ℚ)) (evals : List ℚ)
    (sense : Sense) (hshape : pop.length = evals.length)
    (hne : 0 < evals.length) :
    ∃ i, i < evals.length ∧
      take_best_default pop evals sense =
        Except.ok (pop.getD i [], evals.getD i 0) ∧
      ∀ j, j < evals.length →
        normalize sense (evals.getD i 0) ≤ normalize sense (evals.getD j 0) := by
  have hwne : evals.map (normalize sense) ≠ [] := by
    intro h
    have h2 := congrArg List.length h
    rw [List.length_map] at h2
    simp only [List.length_nil] at h2
    omega
  have hmmem := listMin_mem (evals.map (normalize sense)) hwne
  obtain ⟨v, hvmem, hveq⟩ := List.mem_map.mp hmmem
  have hexists : ∃ x ∈ evals,
      (normalize sense x == listMin (evals.map (normalize sense))) = true :=
    ⟨v, hvmem, beq_iff_eq.mpr hveq⟩
  have hidx := List.findIdx_lt_length_of_exists hexists
  refine ⟨List.findIdx
      (fun v => normalize sense v == listMin (evals.map (normalize sense))) evals,
    hidx, ?_, ?_⟩
  · simp only [take_best_default]
    rw [if_neg (fun hcon => hcon hshape), if_neg (by omega)]
  · intro j hj
    have hfound : (normalize sense
        evals[List.findIdx
          (fun v => normalize sense v == listMin (evals.map (normalize sense))) evals]
          == listMin (evals.map (normalize sense))) = true :=
      @List.findIdx_getElem _ _ _ hidx
    have hieq : normalize sense
        evals[List.findIdx
          (fun v => normalize sense v == listMin (evals.map (normalize sense))) evals]
        = listMin (evals.map (normalize sense)) := beq_iff_eq.mp hfound
    rw [List.getD_eq_getElem evals 0 hidx, List.getD_eq_getElem evals 0 hj, hieq]
    apply listMin_le
    exact List.mem_map.mpr ⟨evals[j], List.getElem_mem hj, rfl⟩

/-- Witness for C10 at a concrete two-candidate population. -/
theorem take_best_default_spec_witness :
    ∃ i, i < ([(3 : ℚ), 1] : List ℚ).length ∧
      take_best_default [[(30 : ℚ)], [10]] [(3 : ℚ), 1] Sense.minimize =
        Except.ok (([[(30 : ℚ)], [10]] : List (List ℚ)).getD i [],
          ([(3 : ℚ), 1] : List ℚ).getD i 0) ∧
      ∀ j, j < ([(3 : ℚ), 1] : List ℚ).length →
        normalize Sense.minimize (([(3 : ℚ), 1] : List ℚ).getD i 0) ≤
          normalize Sense.minimize (([(3 : ℚ), 1] : List ℚ).getD j 0) :=
  take_best_default_spec [[(30 : ℚ)], [10]] [(3 : ℚ), 1] Sense.minimize
    (by decide) (by decide)

theorem length_colVals (front : List (List ℚ)) (j : ℕ) :
    (colVals front j).length = front.length := by
  simp [colVals]

theorem sumInf_eq_none_of_mem :
    ∀ (l : List (Option ℚ)), none ∈ l → sumInf l = none
  | [], h => by simp at h
  | x :: t, h => by
    rcases List.mem_cons.mp h with rfl | h
    · simp [sumInf, addInf]
    · simp only [sumInf, List.foldr_cons]
      have ht : sumInf t = none := sumInf_eq_none_of_mem t h
      rw [sumInf] at ht
      rw [ht]
      cases x <;> simp [addInf]

theorem colVals_getD_mem (front : List (List ℚ)) (j k : ℕ)
    (hk : k < front.length) : (colVals front j).getD k 0 ∈ colVals front j := by
  have hk2 : k < (colVals front j).length := by rw [length_colVals]; exact hk
  rw [List.getD_eq_getElem _ 0 hk2]
  exact List.getElem_mem hk2

theorem colVals_min_le (front : List (List ℚ)) (j k : ℕ)
    (hk : k < front.length) :
    listMin (colVals front j) ≤ (colVals front j).getD k 0 :=
  listMin_le _ _ (colVals_getD_mem front j k hk)

theorem colVals_le_max (front : List (List ℚ)) (j k : ℕ)
    (hk : k < front.length) :
    (colVals front j).getD k 0 ≤ listMax (colVals front j) :=
  le_listMax _ _ (colVals_getD_mem front j k hk)

theorem colVals_min_attained (front : List (List ℚ)) (j : ℕ)
    (hn : 0 < front.length) :
    ∃ k, k < front.length ∧ (colVals front j).getD k 0 = listMin (colVals front j) := by
  have hne : colVals front j ≠ [] := by
    intro h
    have := congrArg List.length h
    rw [length_colVals] at this
    simp only [List.length_nil] at this
    omega
  obtain ⟨k, hk, hke⟩ := List.mem_iff_getElem.mp (listMin_mem _ hne)
  rw [length_colVals] at hk
  refine ⟨k, hk, ?_⟩
  rw [List.getD_eq_getElem _ 0 (by rw [length_colVals]; exact hk)]
  exact hke

theorem colVals_max_attained (front : List (List ℚ)) (j : ℕ)
    (hn : 0 < front.length) :
    ∃ k, k < front.length ∧ (colVals front j).getD k 0 = listMax (colVals front j) := by
  have hne : colVals front j ≠ [] := by
    intro h
    have := congrArg List.length h
    rw [length_colVals] at this
    simp only [List.length_nil] at this
    omega
  obtain ⟨k, hk, hke⟩ := List.mem_iff_getElem.mp (listMax_mem _ hne)
  rw [length_colVals] at hk
  refine ⟨k, hk, ?_⟩
  rw [List.getD_eq_getElem _ 0 (by rw [length_colVals]; exact hk)]
  exact hke

theorem numObjectives_eq {front : List (List ℚ)} {M : ℕ}
    (hM : ∀ row ∈ front, row.length = M) (hn : 0 < front.length) :
    numObjectives front = M := by
  cases front with
  | nil => simp at hn
  | cons r t =>
    simp only [numObjectives, List.headD_cons]
    exact hM r (List.mem_cons_self r t)

theorem crowding_distances_getD {front : List (List ℚ)} {M : ℕ}
    (hM : ∀ row ∈ front, row.length = M) (i : ℕ) (hi : i < front.length) :
    (crowding_distances front).getD i none =
      sumInf ((List.range M).map (fun j => crowdContrib front j i)) := by
  have hlen : i < (crowding_distances front).length := by
    rw [length_crowding_distances]; exact hi
  rw [List.getD_eq_getElem _ none hlen]
  simp only [crowding_distances]
  rw [List.getElem_map, List.getElem_range,
    numObjectives_eq hM (lt_of_le_of_lt (Nat.zero_le i) hi)]

/-- C8: for a front of at least two members with uniformly `M` objectives,
the crowding distance of member `i` is the sum over objectives of per-objective
contributions, where a contribution is exactly 0 when the objective is
constant over the front (no division by zero), infinite when the member holds
the smallest or largest value of that objective, and otherwise
`(value[next] - value[prev]) / (objective_max - objective_min)` over the front
members sorted (stably) by that objective; an infinite contribution makes the
whole crowding distance infinite. -/
theorem crowding_distance_matches_spec (front : List (List ℚ)) {M : ℕ}
    (hM : ∀ row ∈ front, row.length = M) (h2 : 2 ≤ front.length)
    (i : ℕ) (hi : i < front.length) :
    (crowding_distances front).length = front.length ∧
    (crowding_distances front).getD i none =
      sumInf ((List.range M).map (fun j => crowdContrib front j i)) ∧
    (∀ j, j < M →
      ((∀ k, k < front.length →
          (colVals front j).getD k 0 = (colVals front j).getD i 0) →
        crowdContrib front j i = some 0) ∧
      ((∃ k, k < front.length ∧
          (colVals front j).getD k 0 ≠ (colVals front j).getD i 0) →
        ((∀ k, k < front.length →
            (colVals front j).getD i 0 ≤ (colVals front j).getD k 0) ∨
          (∀ k, k < front.length →
            (colVals front j).getD k 0 ≤ (colVals front j).getD i 0)) →
        crowdContrib front j i = none) ∧
      ((∃ k, k < front.length ∧
          (colVals front j).getD k 0 < (colVals front j).getD i 0) →
        (∃ k, k < front.length ∧
          (colVals front j).getD i 0 < (colVals front j).getD k 0) →
        crowdContrib front j i =
          some (((sortedCol (colVals front j)).getD
                (stablePos (colVals front j) i + 1) 0 -
              (sortedCol (colVals front j)).getD
                (stablePos (colVals front j) i - 1) 0) /
            (listMax (colVals front j) - listMin (colVals front j))))) ∧
    ((∃ j, j < M ∧ crowdContrib front j i = none) →
      (crowding_distances front).getD i none = none) := by
  have hn : 0 < front.length := by omega
  refine ⟨length_crowding_distances front, crowding_distances_getD hM i hi, ?_, ?_⟩
  · intro j hj
    refine ⟨?_, ?_, ?_⟩
    · intro hconst
      obtain ⟨k0, hk0, hk0e⟩ := colVals_min_attained front j hn
      obtain ⟨k1, hk1, hk1e⟩ := colVals_max_attained front j hn
      have hminv : listMin (colVals front j) = (colVals front j).getD i 0 := by
        rw [← hk0e]; exact hconst k0 hk0
      have hmaxv : listMax (colVals front j) = (colVals front j).getD i 0 := by
        rw [← hk1e]; exact hconst k1 hk1
      rw [crowdContrib, if_pos (hmaxv.trans hminv.symm)]
    · rintro ⟨k, hk, hkne⟩ hbound
      have hne : listMax (colVals front j) ≠ listMin (colVals front j) := by
        intro hcontra
        apply hkne
        have h1 := colVals_min_le front j k hk
        have h2 := colVals_le_max front j k hk
        have h3 := colVals_min_le front j i hi
        have h4 := colVals_le_max front j i hi
        rw [hcontra] at h2 h4
        have : (colVals front j).getD k 0 = listMin (colVals front j) :=
          le_antisymm h2 h1
        have h5 : (colVals front j).getD i 0 = listMin (colVals front j) :=
          le_antisymm h4 h3
        rw [this, h5]
      rcases hbound with hlow | hhigh
      · have hvi : (colVals front j).getD i 0 = listMin (colVals front j) := by
          obtain ⟨k0, hk0, hk0e⟩ := colVals_min_attained front j hn
          exact le_antisymm (hk0e ▸ hlow k0 hk0) (colVals_min_le front j i hi)
        rw [crowdContrib, if_neg hne, if_pos (Or.inl hvi)]
      · have hvi : (colVals front j).getD i 0 = listMax (colVals front j) := by
          obtain ⟨k1, hk1, hk1e⟩ := colVals_max_attained front j hn
          exact le_antisymm (colVals_le_max front j i hi) (hk1e ▸ hhigh k1 hk1)
        rw [crowdContrib, if_neg hne, if_pos (Or.inr hvi)]
    · rintro ⟨k1, hk1, hlt1⟩ ⟨k2, hk2, hlt2⟩
      have hltmin : listMin (colVals front j) < (colVals front j).getD i 0 :=
        lt_of_le_of_lt (colVals_min_le front j k1 hk1) hlt1
      have hltmax : (colVals front j).getD i 0 < listMax (colVals front j) :=
        lt_of_lt_of_le hlt2 (colVals_le_max front j k2 hk2)
      have hne : listMax (colVals front j) ≠ listMin (colVals front j) := by
        intro hcontra
        rw [hcontra] at hltmax
        exact absurd (hltmin.trans hltmax) (lt_irrefl _)
      have hnotb : ¬ ((colVals front j).getD i 0 = listMin (colVals front j) ∨
          (colVals front j).getD i 0 = listMax (colVals front j)) := by
        rintro (h | h)
        · rw [h] at hltmin; exact absurd hltmin (lt_irrefl _)
        · rw [h] at hltmax; exact absurd hltmax (lt_irrefl _)
      rw [crowdContrib, if_neg hne, if_neg hnotb]
  · rintro ⟨j, hj, hnone⟩
    rw [crowding_distances_getD hM i hi]
    apply sumInf_eq_none_of_mem
    have hmem2 : crowdContrib front j i ∈
        List.map (fun j => crowdContrib front j i) (List.range M) :=
      List.mem_map_of_mem (fun j => crowdContrib front j i)
        (List.mem_range.mpr hj)
    rwa [hnone] at hmem2

/-- Witness for C8 at a concrete two-member front with two objectives. -/
theorem crowding_distance_matches_spec_witness :
    (crowding_distances [[(0 : ℚ), 0], [1, 2]]).getD 0 none =
      sumInf ((List.range 2).map
        (fun j => crowdContrib [[(0 : ℚ), 0], [1, 2]] j 0)) :=
  (@crowding_distance_matches_spec [[(0 : ℚ), 0], [1, 2]] 2
    (by decide) (by decide) 0 (by decide)).2.1

theorem dominates_single (s : Sense) (a b : List ℚ)
    (ha : a.length = 1) (hb : b.length = 1) :
    dominates [s] a b = decide (val1 s a < val1 s b) := by
  obtain ⟨x, rfl⟩ := List.length_eq_one.mp ha
  obtain ⟨y, rfl⟩ := List.length_eq_one.mp hb
  simp only [dominates, normalizeRow, List.zipWith_cons_cons, List.zipWith_nil_right,
    List.zip_cons_cons, List.zip_nil_right, List.all_cons, List.all_nil,
    List.any_cons, List.any_nil, Bool.and_true, Bool.or_false, val1, List.getD_cons_zero]
  by_cases h : normalize s x < normalize s y
  · simp [h, le_of_lt h]
  · simp [h]

theorem pair_mem_unique {β : Type} :
    ∀ (l : List (ℕ × β)), (l.map Prod.fst).Nodup →
      ∀ {i : ℕ} {x y : β}, (i, x) ∈ l → (i, y) ∈ l → x = y
  | [], _, _, _, _, hx, _ => by simp at hx
  | (k, v) :: t, hnd, i, x, y, hx, hy => by
    rw [List.map_cons, List.nodup_cons] at hnd
    obtain ⟨hk, hndt⟩ := hnd
    rcases List.mem_cons.mp hx with hx1 | hx1
    · rcases List.mem_cons.mp hy with hy1 | hy1
      · have h1 : x = v := congrArg Prod.snd hx1
        have h2 : y = v := congrArg Prod.snd hy1
        rw [h1, h2]
      · exfalso
        apply hk
        have hik : i = k := congrArg Prod.fst hx1
        rw [← hik]
        exact List.mem_map.mpr ⟨(i, y), hy1, rfl⟩
    · rcases List.mem_cons.mp hy with hy1 | hy1
      · exfalso
        apply hk
        have hik : i = k := congrArg Prod.fst hy1
        rw [← hik]
        exact List.mem_map.mpr ⟨(i, x), hx1, rfl⟩
      · exact pair_mem_unique t hndt hx1 hy1

theorem undominatedIn_single_iff (s : Sense) (rem : List (ℕ × List ℚ))
    (hlen1 : ∀ p ∈ rem, p.2.length = 1) (b : ℕ × List ℚ) (hb : b ∈ rem) :
    (undominatedIn [s] rem b = true ↔ ∀ a ∈ rem, val1 s b.2 ≤ val1 s a.2) := by
  rw [undominatedIn, Bool.not_eq_true', ← Bool.not_eq_true, List.any_eq_true]
  constructor
  · intro hno a hamem
    by_contra hcon
    rw [not_le] at hcon
    apply hno
    refine ⟨a, hamem, ?_⟩
    rw [dominates_single s a.2 b.2 (hlen1 a hamem) (hlen1 b hb)]
    exact decide_eq_true hcon
  · rintro hall ⟨a, hamem, hadom⟩
    rw [dominates_single s a.2 b.2 (hlen1 a hamem) (hlen1 b hb)] at hadom
    have := of_decide_eq_true hadom
    have h2 := hall a hamem
    exact absurd this (not_lt.mpr h2)

theorem frontRanksAux_single_order (s : Sense) :
    ∀ (fuel r : ℕ) (rem : List (ℕ × List ℚ)),
      rem.length ≤ fuel →
      (∀ p ∈ rem, p.2.length = 1) →
      (rem.map Prod.fst).Nodup →
      ∀ (i ri : ℕ) (vi : List ℚ) (j rj : ℕ) (vj : List ℚ),
        (i, ri) ∈ frontRanksAux [s] fuel r rem →
        (j, rj) ∈ frontRanksAux [s] fuel r rem →
        (i, vi) ∈ rem → (j, vj) ∈ rem →
        ((ri < rj ↔ val1 s vi < val1 s vj) ∧ (ri = rj ↔ val1 s vi = val1 s vj))
  | 0, r, rem, hfuel, _, _, i, ri, vi, j, rj, vj, hri, hrj, hvi, hvj => by
    have hrem : rem = [] := List.length_eq_zero.mp (Nat.le_zero.mp hfuel)
    subst hrem
    simp at hvi
  | fuel + 1, r, rem, hfuel, hlen1, hnd, i, ri, vi, j, rj, vj, hri, hrj, hvi, hvj => by
    rcases eq_or_ne rem [] with hrem | hrem
    · subst hrem
      simp at hvi
    · obtain ⟨b0, hb0mem, hb0min⟩ := exists_undominated (L := 1) [s] rem hrem hlen1
      have hfr_ne : rem.filter (undominatedIn [s] rem) ≠ [] := by
        intro hnil
        have hb : b0 ∈ rem.filter (undominatedIn [s] rem) := by
          rw [List.mem_filter]
          refine ⟨hb0mem, ?_⟩
          rw [undominatedIn, Bool.not_eq_true']
          rw [← Bool.not_eq_true, List.any_eq_true]
          rintro ⟨a, hamem, hadom⟩
          rw [hb0min a hamem] at hadom
          exact Bool.false_ne_true hadom
        rw [hnil] at hb
        exact List.not_mem_nil b0 hb
      -- every member of the current front attains the minimum value, every
      -- member of the rest is strictly above it
      have hfr_val : ∀ p ∈ rem.filter (undominatedIn [s] rem),
          ∀ a ∈ rem, val1 s p.2 ≤ val1 s a.2 := by
        intro p hp a ha
        rw [List.mem_filter] at hp
        exact (undominatedIn_single_iff s rem hlen1 p hp.1).mp hp.2 a ha
      have hrest_val : ∀ p ∈ rem.filter (fun b => ! undominatedIn [s] rem b),
          ∃ a ∈ rem, val1 s a.2 < val1 s p.2 := by
        intro p hp
        rw [List.mem_filter] at hp
        obtain ⟨hpmem, hpnot⟩ := hp
        rw [Bool.not_eq_true'] at hpnot
        by_contra hcon
        push_neg at hcon
        have hall : undominatedIn [s] rem p = true :=
          (undominatedIn_single_iff s rem hlen1 p hpmem).mpr hcon
        rw [hpnot] at hall
        exact Bool.false_ne_true hall
      simp only [frontRanksAux, List.mem_append] at hri hrj
      have hsplit := (List.filter_append_perm (undominatedIn [s] rem) rem).length_eq
      rw [List.length_append] at hsplit
      have hfrpos : 0 < (rem.filter (undominatedIn [s] rem)).length :=
        List.length_pos.mpr hfr_ne
      have hrest_fuel : (rem.filter (fun b => ! undominatedIn [s] rem b)).length ≤ fuel := by
        omega
      have hrest_len1 : ∀ p ∈ rem.filter (fun b => ! undominatedIn [s] rem b),
          p.2.length = 1 := fun p hp => hlen1 p (List.mem_of_mem_filter hp)
      have hrest_nd : ((rem.filter (fun b => ! undominatedIn [s] rem b)).map
          Prod.fst).Nodup :=
        List.Sublist.nodup (List.Sublist.map Prod.fst (List.filter_sublist rem)) hnd
      -- a membership in the recursive part determines a membership in `rest`
      have hrec_val : ∀ (ki kr : ℕ) (kv : List ℚ),
          (ki, kr) ∈ frontRanksAux [s] fuel (r + 1)
            (rem.filter (fun b => ! undominatedIn [s] rem b)) →
          (ki, kv) ∈ rem →
          (ki, kv) ∈ rem.filter (fun b => ! undominatedIn [s] rem b) := by
        intro ki kr kv hkrec hkmem
        have hkey : ki ∈ ((rem.filter (fun b => ! undominatedIn [s] rem b)).map
            Prod.fst) := by
          have h1 : ki ∈ (frontRanksAux [s] fuel (r + 1)
              (rem.filter (fun b => ! undominatedIn [s] rem b))).map Prod.fst :=
            List.mem_map.mpr ⟨(ki, kr), hkrec, rfl⟩
          exact (frontRanksAux_keys_perm [s] fuel (r + 1) _).mem_iff.mp h1
        obtain ⟨q, hq, hqk⟩ := List.mem_map.mp hkey
        have hqrem : q ∈ rem := List.mem_of_mem_filter hq
        have hq2 : q.2 = kv := by
          apply pair_mem_unique rem hnd _ hkmem
          rw [← hqk]
          exact hqrem
        have hqeq : q = (ki, kv) := by
          rw [Prod.ext_iff]
          exact ⟨hqk, hq2⟩
        rw [← hqeq]
        exact hq
      -- a membership in the front part fixes the rank and pins the value to
      -- the minimum
      have hfr_case : ∀ (ki kr : ℕ) (kv : List ℚ),
          (ki, kr) ∈ (rem.filter (undominatedIn [s] rem)).map (fun p => (p.1, r)) →
          (ki, kv) ∈ rem →
          kr = r ∧ ∀ a ∈ rem, val1 s kv ≤ val1 s a.2 := by
        intro ki kr kv hkfr hkmem
        obtain ⟨q, hq, hqe⟩ := List.mem_map.mp hkfr
        have hkr : kr = r := (congrArg Prod.snd hqe).symm
        have hqk : q.1 = ki := congrArg Prod.fst hqe
        have hqrem : q ∈ rem := List.mem_of_mem_filter hq
        have hq2 : q.2 = kv := by
          apply pair_mem_unique rem hnd _ hkmem
          rw [← hqk]
          exact hqrem
        refine ⟨hkr, ?_⟩
        rw [← hq2]
        exact hfr_val q hq
      rcases hri with hri | hri
      · rcases hrj with hrj | hrj
        · -- both on the current front: equal ranks, equal (minimal) values
          obtain ⟨hrieq, hivmin⟩ := hfr_case i ri vi hri hvi
          obtain ⟨hrjeq, hjvmin⟩ := hfr_case j rj vj hrj hvj
          have hvij : val1 s vi = val1 s vj :=
            le_antisymm (hivmin (j, vj) hvj) (hjvmin (i, vi) hvi)
          subst hrieq hrjeq
          constructor
          · constructor
            · intro h; omega
            · intro h; rw [hvij] at h; exact absurd h (lt_irrefl _)
          · constructor
            · intro h; exact hvij
            · intro h; rfl
        · -- `i` on the front, `j` strictly below it
          obtain ⟨hrieq, hivmin⟩ := hfr_case i ri vi hri hvi
          have hjrest : (j, vj) ∈ rem.filter (fun b => ! undominatedIn [s] rem b) :=
            hrec_val j rj vj hrj hvj
          have hrj_ge : r + 1 ≤ rj := frontRanksAux_rank_le [s] fuel (r + 1) _ _ hrj
          obtain ⟨a, hamem, halt⟩ := hrest_val (j, vj) hjrest
          have hvj_gt : val1 s vi < val1 s vj :=
            lt_of_le_of_lt (hivmin a hamem) halt
          subst hrieq
          constructor
          · constructor
            · intro h; exact hvj_gt
            · intro h; omega
          · constructor
            · intro h; omega
            · intro h; rw [h] at hvj_gt; exact absurd hvj_gt (lt_irrefl _)
      · rcases hrj with hrj | hrj
        · -- `j` on the front, `i` strictly below it
          obtain ⟨hrjeq, hjvmin⟩ := hfr_case j rj vj hrj hvj
          have hirest : (i, vi) ∈ rem.filter (fun b => ! undominatedIn [s] rem b) :=
            hrec_val i ri vi hri hvi
          have hri_ge : r + 1 ≤ ri := frontRanksAux_rank_le [s] fuel (r + 1) _ _ hri
          obtain ⟨a, hamem, halt⟩ := hrest_val (i, vi) hirest
          have hvi_gt : val1 s vj < val1 s vi :=
            lt_of_le_of_lt (hjvmin a hamem) halt
          subst hrjeq
          constructor
          · constructor
            · intro h; omega
            · intro h; exact absurd (h.trans hvi_gt) (lt_irrefl _)
          · constructor
            · intro h; omega
            · intro h; rw [h] at hvi_gt; exact absurd hvi_gt (lt_irrefl _)
        · -- both strictly below the current front: induction hypothesis
          have hirest : (i, vi) ∈ rem.filter (fun b => ! undominatedIn [s] rem b) :=
            hrec_val i ri vi hri hvi
          have hjrest : (j, vj) ∈ rem.filter (fun b => ! undominatedIn [s] rem b) :=
            hrec_val j rj vj hrj hvj
          exact frontRanksAux_single_order s fuel (r + 1) _
            hrest_fuel hrest_len1 hrest_nd i ri vi j rj vj hri hrj hirest hjrest

theorem pareto_ranks_single_order (s : Sense) (evals : List (List ℚ))
    (h1 : ∀ row ∈ evals, row.length = 1)
    (i j : ℕ) (hi : i < evals.length) (hj : j < evals.length) :
    (((pareto_ranks evals [s]).getD i 0 < (pareto_ranks evals [s]).getD j 0 ↔
        val1 s (evals.getD i []) < val1 s (evals.getD j [])) ∧
      ((pareto_ranks evals [s]).getD i 0 = (pareto_ranks evals [s]).getD j 0 ↔
        val1 s (evals.getD i []) = val1 s (evals.getD j []))) := by
  have hmi := pareto_ranks_mem_tagged evals [s] i hi
  have hmj := pareto_ranks_mem_tagged evals [s] j hj
  have hnd : (evals.enum.map Prod.fst).Nodup := by
    rw [List.enum_map_fst]
    exact List.nodup_range _
  have h := frontRanksAux_single_order s evals.length 0 evals.enum
    (le_of_eq List.enum_length) (enum_row_length h1) hnd
    i ((pareto_ranks evals [s]).getD i 0) evals[i]
    j ((pareto_ranks evals [s]).getD j 0) evals[j]
    hmi hmj (mem_enum_self evals i hi) (mem_enum_self evals j hj)
  rw [List.getD_eq_getElem evals [] hi, List.getD_eq_getElem evals [] hj]
  exact h

theorem singleLe_trans (s : Sense) (evals : List (List ℚ)) :
    ∀ (a b c : ℕ),
      (decide (val1 s (evals.getD a []) < val1 s (evals.getD b []) ∨
        (val1 s (evals.getD a []) = val1 s (evals.getD b []) ∧ a ≤ b))) = true →
      (decide (val1 s (evals.getD b []) < val1 s (evals.getD c []) ∨
        (val1 s (evals.getD b []) = val1 s (evals.getD c []) ∧ b ≤ c))) = true →
      (decide (val1 s (evals.getD a []) < val1 s (evals.getD c []) ∨
        (val1 s (evals.getD a []) = val1 s (evals.getD c []) ∧ a ≤ c))) = true := by
  intro a b c hab hbc
  rw [decide_eq_true_eq] at hab hbc ⊢
  rcases hab with hab | ⟨hab, haleb⟩
  · rcases hbc with hbc | ⟨hbc, -⟩
    · exact Or.inl (hab.trans hbc)
    · exact Or.inl (hbc ▸ hab)
  · rcases hbc with hbc | ⟨hbc, hblec⟩
    · exact Or.inl (hab ▸ hbc)
    · exact Or.inr ⟨hab.trans hbc, le_trans haleb hblec⟩

theorem singleLe_total (s : Sense) (evals : List (List ℚ)) :
    ∀ (a b : ℕ),
      ((decide (val1 s (evals.getD a []) < val1 s (evals.getD b []) ∨
          (val1 s (evals.getD a []) = val1 s (evals.getD b []) ∧ a ≤ b))) ||
       (decide (val1 s (evals.getD b []) < val1 s (evals.getD a []) ∨
          (val1 s (evals.getD b []) = val1 s (evals.getD a []) ∧ b ≤ a)))) = true := by
  intro a b
  rw [Bool.or_eq_true, decide_eq_true_eq, decide_eq_true_eq]
  rcases lt_trichotomy (val1 s (evals.getD a [])) (val1 s (evals.getD b [])) with h | h | h
  · exact Or.inl (Or.inl h)
  · rcases Nat.le_total a b with hab | hab
    · exact Or.inl (Or.inr ⟨h, hab⟩)
    · exact Or.inr (Or.inr ⟨h.symm, hab⟩)
  · exact Or.inr (Or.inl h)

theorem fronts_flatten_eq_mergeSort_single (s : Sense) (evals : List (List ℚ))
    (h1 : ∀ row ∈ evals, row.length = 1) :
    (frontsList (pareto_ranks evals [s])).flatten =
      (List.range evals.length).mergeSort
        (fun i j => decide (val1 s (evals.getD i []) < val1 s (evals.getD j []) ∨
          (val1 s (evals.getD i []) = val1 s (evals.getD j []) ∧ i ≤ j))) := by
  have hcov : ∀ i ∈ List.range (pareto_ranks evals [s]).length,
      (pareto_ranks evals [s]).getD i 0 < (pareto_ranks evals [s]).length := by
    intro i hi
    rw [length_pareto_ranks] at hi ⊢
    exact pareto_ranks_lt evals [s] h1 i (List.mem_range.mp hi)
  have hperm1 := fronts_flatten_perm (pareto_ranks evals [s]) hcov
  rw [length_pareto_ranks] at hperm1
  have hperm2 := List.mergeSort_perm (List.range evals.length)
    (fun i j => decide (val1 s (evals.getD i []) < val1 s (evals.getD j []) ∨
      (val1 s (evals.getD i []) = val1 s (evals.getD j []) ∧ i ≤ j)))
  have hperm : ((frontsList (pareto_ranks evals [s])).flatten).Perm
      ((List.range evals.length).mergeSort
        (fun i j => decide (val1 s (evals.getD i []) < val1 s (evals.getD j []) ∨
          (val1 s (evals.getD i []) = val1 s (evals.getD j []) ∧ i ≤ j)))) :=
    hperm1.trans hperm2.symm
  -- membership in a front pins the rank and the bound
  have hmem_front : ∀ (r x : ℕ), x ∈ frontIndices (pareto_ranks evals [s]) r →
      x < evals.length ∧ (pareto_ranks evals [s]).getD x 0 = r := by
    intro r x hx
    rw [frontIndices, List.mem_filter, List.mem_range, length_pareto_ranks] at hx
    exact ⟨hx.1, beq_iff_eq.mp hx.2⟩
  -- the concatenation of the fronts is sorted for the lexicographic order
  have hsorted1 : List.Pairwise
      (fun i j => val1 s (evals.getD i []) < val1 s (evals.getD j []) ∨
        (val1 s (evals.getD i []) = val1 s (evals.getD j []) ∧ i ≤ j))
      (frontsList (pareto_ranks evals [s])).flatten := by
    rw [List.pairwise_flatten]
    constructor
    · intro l hl
      rw [frontsList] at hl
      obtain ⟨r, -, hre⟩ := List.mem_map.mp hl
      rw [← hre]
      have hpw : List.Pairwise (fun x y => x < y)
          (frontIndices (pareto_ranks evals [s]) r) :=
        List.Pairwise.filter _ (List.pairwise_lt_range _)
      refine List.Pairwise.imp_of_mem ?_ hpw
      intro x y hx hy hxy
      rw [← hre] at *
      obtain ⟨hxlt, hxr⟩ := hmem_front r x hx
      obtain ⟨hylt, hyr⟩ := hmem_front r y hy
      have heq := ((pareto_ranks_single_order s evals h1 x y hxlt hylt).2).mp
        (by rw [hxr, hyr])
      exact Or.inr ⟨heq, le_of_lt hxy⟩
    · rw [frontsList, List.pairwise_map]
      refine List.Pairwise.imp_of_mem ?_ (List.pairwise_lt_range _)
      intro r r' hr hr' hrlt x hx y hy
      obtain ⟨hxlt, hxr⟩ := hmem_front r x hx
      obtain ⟨hylt, hyr⟩ := hmem_front r' y hy
      have hlt := ((pareto_ranks_single_order s evals h1 x y hxlt hylt).1).mp
        (by rw [hxr, hyr]; exact hrlt)
      exact Or.inl hlt
  have hsorted2 : List.Pairwise
      (fun i j => val1 s (evals.getD i []) < val1 s (evals.getD j []) ∨
        (val1 s (evals.getD i []) = val1 s (evals.getD j []) ∧ i ≤ j))
      ((List.range evals.length).mergeSort
        (fun i j => decide (val1 s (evals.getD i []) < val1 s (evals.getD j []) ∨
          (val1 s (evals.getD i []) = val1 s (evals.getD j []) ∧ i ≤ j)))) := by
    have h := @List.sorted_mergeSort ℕ (fun i j =>
        decide (val1 s (evals.getD i []) < val1 s (evals.getD j []) ∨
          (val1 s (evals.getD i []) = val1 s (evals.getD j []) ∧ i ≤ j)))
      (singleLe_trans s evals) (singleLe_total s evals) (List.range evals.length)
    exact h.imp (fun hab => of_decide_eq_true hab)
  haveI : IsAntisymm ℕ (fun i j =>
      val1 s (evals.getD i []) < val1 s (evals.getD j []) ∨
        (val1 s (evals.getD i []) = val1 s (evals.getD j []) ∧ i ≤ j)) := by
    constructor
    intro a b hab hba
    rcases hab with hab | ⟨hab, haleb⟩
    · rcases hba with hba | ⟨hba, -⟩
      · exact absurd (hab.trans hba) (lt_irrefl _)
      · rw [hba] at hab; exact absurd hab (lt_irrefl _)
    · rcases hba with hba | ⟨-, hblea⟩
      · rw [hab] at hba; exact absurd hba (lt_irrefl _)
      · omega
  exact List.eq_of_perm_of_sorted hperm hsorted1 hsorted2

/-- C2: for every extended population with matching evaluations of uniform
objective count and every target survivor count not exceeding the population
size, `take_best` succeeds and returns exactly `target` surviving (population,
evaluation) pairs per batch slice — never fewer and never more (stated for a
single population and for every slice of a batched call). -/
theorem take_best_exact_size {M : ℕ} :
    (∀ (pop evals : List (List ℚ)) (senses : List Sense) (target : ℕ)
        (crowdsort : Bool),
      pop.length = evals.length →
      (∀ row ∈ evals, row.length = M) →
      target ≤ evals.length →
      ∃ spop sevals,
        take_best pop evals target senses crowdsort = Except.ok (spop, sevals) ∧
        spop.length = target ∧ sevals.length = target) ∧
    (∀ (pops evalss : List (List (List ℚ))) (senses : List Sense) (target : ℕ)
        (crowdsort : Bool) (L : List (List (List ℚ) × List (List ℚ))),
      pops.length = evalss.length →
      (∀ E ∈ evalss, ∀ row ∈ E, row.length = M) →
      (∀ b, b < evalss.length →
        (pops.getD b []).length = (evalss.getD b []).length ∧
        target ≤ (evalss.getD b []).length) →
      take_best_batched pops evalss target senses crowdsort = Except.ok L →
      ∀ b, b < L.length →
        (L.getD b ([], [])).1.length = target ∧
        (L.getD b ([], [])).2.length = target) := by
  constructor
  · intro pop evals senses target crowdsort hshape hM htarget
    exact take_best_ok_exact pop evals senses target crowdsort hshape hM htarget
  · intro pops evalss senses target crowdsort L hlen hME hslices hok b hb
    simp only [take_best_batched] at hok
    rw [if_neg (by omega)] at hok
    obtain ⟨hL, hall⟩ := mapExcept_ok _ L hok
    have hmaplen : ((pops.zip evalss).map
        (fun pe => take_best pe.1 pe.2 target senses crowdsort)).length
        = pops.length := by
      simp [List.length_zip]
      omega
    have hbp : b < pops.length := by rw [hL, hmaplen] at hb; exact hb
    have h1 : b < ((pops.zip evalss).map
        (fun pe => take_best pe.1 pe.2 target senses crowdsort)).length := by
      rw [hmaplen]; exact hbp
    have hel := hall b h1 hb
    rw [List.getElem_map, List.getElem_zip] at hel
    have hbe : b < evalss.length := by omega
    obtain ⟨hs1, hs2⟩ := hslices b hbe
    rw [List.getD_eq_getElem pops [] hbp, List.getD_eq_getElem evalss [] hbe] at hs1
    rw [List.getD_eq_getElem evalss [] hbe] at hs2
    have hrows : ∀ row ∈ evalss[b], row.length = M :=
      hME evalss[b] (List.getElem_mem hbe)
    obtain ⟨spop, sevals, hok2, hl1, hl2⟩ := take_best_ok_exact pops[b] evalss[b]
      senses target crowdsort hs1 hrows hs2
    rw [hok2] at hel
    have hpair : (spop, sevals) = L[b] := Except.ok.inj hel
    rw [List.getD_eq_getElem L _ hb, ← hpair]
    exact ⟨hl1, hl2⟩

/-- Witness for C2 at a concrete population with target 1. -/
theorem take_best_exact_size_witness :
    ∃ spop sevals,
      take_best [[(1 : ℚ)], [2]] [[(1 : ℚ)], [2]] 1 [Sense.minimize] false =
        Except.ok (spop, sevals) ∧ spop.length = 1 ∧ sevals.length = 1 :=
  (@take_best_exact_size 1).1 [[(1 : ℚ)], [2]] [[(1 : ℚ)], [2]]
    [Sense.minimize] 1 false (by decide) (by decide) (by decide)

/-- C6: single-objective degeneration.  For every population whose
evaluations have a single objective (M = 1), every target count and both
crowd-sort settings, the multi-objective `take_best` pipeline (domination
counts, front partition, truncation) returns exactly the result of directly
taking the best candidates by raw objective value with stable index
tie-break (and the same errors on invalid inputs). -/
theorem single_objective_degeneration (pop evals : List (List ℚ))
    (target : ℕ) (s : Sense) (crowdsort : Bool)
    (h1 : ∀ row ∈ evals, row.length = 1) :
    take_best pop evals target [s] crowdsort =
      take_best_single_spec pop evals target s := by
  by_cases hsh : pop.length ≠ evals.length
  · have hL : take_best pop evals target [s] crowdsort =
        Except.error OpError.shapeMismatch := by
      simp only [take_best]
      rw [if_pos hsh]
    have hR : take_best_single_spec pop evals target s =
        Except.error OpError.shapeMismatch := by
      simp only [take_best_single_spec]
      rw [if_pos hsh]
    rw [hL, hR]
  · push_neg at hsh
    by_cases hov : pop.length < target
    · have hL : take_best pop evals target [s] crowdsort =
          Except.error OpError.truncationOverflow := by
        simp only [take_best]
        rw [if_neg (fun hc => hc hsh), if_pos hov]
      have hR : take_best_single_spec pop evals target s =
          Except.error OpError.truncationOverflow := by
        simp only [take_best_single_spec]
        rw [if_neg (fun hc => hc hsh), if_pos hov]
      rw [hL, hR]
    · have hcrowd : (crowdsort && decide (2 ≤ ([s] : List Sense).length)) = false := by
        simp
      have hsel : consumeFronts evals
          (crowdsort && decide (2 ≤ ([s] : List Sense).length))
          (frontsList (pareto_ranks evals [s])) target =
          ((List.range evals.length).mergeSort
            (fun i j => decide (val1 s (evals.getD i []) < val1 s (evals.getD j []) ∨
              (val1 s (evals.getD i []) = val1 s (evals.getD j []) ∧
                i ≤ j)))).take target := by
        rw [hcrowd, consumeFronts_false_eq_take,
          fronts_flatten_eq_mergeSort_single s evals h1]
      have hL : take_best pop evals target [s] crowdsort =
          Except.ok
            (gather pop (((List.range evals.length).mergeSort
                (fun i j => decide (val1 s (evals.getD i []) < val1 s (evals.getD j []) ∨
                  (val1 s (evals.getD i []) = val1 s (evals.getD j []) ∧
                    i ≤ j)))).take target),
             gather evals (((List.range evals.length).mergeSort
                (fun i j => decide (val1 s (evals.getD i []) < val1 s (evals.getD j []) ∨
                  (val1 s (evals.getD i []) = val1 s (evals.getD j []) ∧
                    i ≤ j)))).take target)) := by
        simp only [take_best]
        rw [if_neg (fun hc => hc hsh), if_neg hov, hsel]
      have hR : take_best_single_spec pop evals target s =
          Except.ok
            (gather pop (((List.range evals.length).mergeSort
                (fun i j => decide (val1 s (evals.getD i []) < val1 s (evals.getD j []) ∨
                  (val1 s (evals.getD i []) = val1 s (evals.getD j []) ∧
                    i ≤ j)))).take target),
             gather evals (((List.range evals.length).mergeSort
                (fun i j => decide (val1 s (evals.getD i []) < val1 s (evals.getD j []) ∨
                  (val1 s (evals.getD i []) = val1 s (evals.getD j []) ∧
                    i ≤ j)))).take target)) := by
        simp only [take_best_single_spec]
        rw [if_neg (fun hc => hc hsh), if_neg hov]
      rw [hL, hR]

/-- Witness for C6 at a concrete two-candidate single-objective population. -/
theorem single_objective_degeneration_witness :
    take_best [[(5 : ℚ)], [6]] [[(2 : ℚ)], [1]] 1 [Sense.minimize] true =
      take_best_single_spec [[(5 : ℚ)], [6]] [[(2 : ℚ)], [1]] 1 Sense.minimize :=
  single_objective_degeneration [[(5 : ℚ)], [6]] [[(2 : ℚ)], [1]] 1
    Sense.minimize true (by decide)

end EvoTorch
